import Mathlib

/-!
# Verification of the portfolio performance engine

A shallow embedding, in Lean 4, of the portfolio valuation and
performance-analytics engine of `backend/app/services/performance.py`
(class `PerformanceService`), together with proofs and refutations of the
specified properties.

Modelling conventions:
* Python floats are modelled as rationals (`ℚ`); a float `NaN` that can
  reach an output field is modelled by `Option ℚ` with `none` for `NaN`.
* Calendar dates are modelled as integers (`ℤ`), one unit per day; this is
  faithful because the code only compares dates, takes max/min, adds
  `timedelta(days=1)`, and measures spans in whole days.
* External library functions with no source in the repository are taken as
  parameters: `sqrtFn` for `numpy.sqrt`, `rpow` for the float `**` operator
  and `solver` for `pyxirr.xirr` (including its exception/non-finite
  handling, so `none` covers "raised", "returned None" and "non-finite").
* Fund identifiers are `Nat`, transaction types are the raw strings of the
  source (`'buy'` versus anything else, matching its `if/else`).
-/

namespace Portfolio

/-! # Part 1 — the embedded definitions -/

/-- A row of the `transactions` table as fed to the engine:
`(unit_trust_id, transaction_type, units, price_per_unit, transaction_date)`. -/
structure Txn where
  fundId : Nat
  txnType : String
  units : ℚ
  price : ℚ
  txnDate : ℤ
  deriving Repr, DecidableEq

/-- A row of the `prices` table: `(unit_trust_id, date, price)`. -/
structure PriceRow where
  fundId : Nat
  pdate : ℤ
  price : ℚ
  deriving Repr, DecidableEq

/-! ## FIFO cost basis (`_calculate_fifo_cost_basis`)

`buy_lots` is a `defaultdict(deque)` mapping fund id to a queue of
`[units_remaining, price_per_unit]` lots.  Python dicts preserve insertion
order, so the map is modelled as an association list; reading a missing key
through the `defaultdict` inserts an empty queue at the end. -/

/-- One lot: `(units_remaining, price_per_unit)`. -/
abbrev Lot := ℚ × ℚ

/-- The `buy_lots` state: fund id to its queue of lots, in insertion order. -/
abbrev LotMap := List (Nat × List Lot)

/-- First entry with the given key, as Python dict lookup. -/
def lookupLots : LotMap → Nat → Option (List Lot)
  | [], _ => none
  | (k', v) :: rest, k => if k' = k then some v else lookupLots rest k

/-- `defaultdict` access: reading a missing key inserts an empty queue. -/
def touch (m : LotMap) (k : Nat) : LotMap :=
  match lookupLots m k with
  | some _ => m
  | none => m ++ [(k, [])]

/-- Replace the value stored at key `k` (used after `touch`, so `k` exists). -/
def setLots : LotMap → Nat → List Lot → LotMap
  | [], _, _ => []
  | (a, b) :: rest, k, v => if a = k then (a, v) :: setLots rest k v else (a, b) :: setLots rest k v

/-- The queue at key `k`, empty when absent. -/
def getLots (m : LotMap) (k : Nat) : List Lot :=
  (lookupLots m k).getD []

/-- The sell loop of `_calculate_fifo_cost_basis`:
`while remaining_to_sell > 0 and buy_lots[fund]:` consume the oldest lot
entirely when `lot_units <= remaining_to_sell`, else decrement it in place
and stop. -/
def consumeLots : List Lot → ℚ → List Lot
  | [], _ => []
  | (u, p) :: rest, r =>
    if r ≤ 0 then (u, p) :: rest
    else if u ≤ r then consumeLots rest (r - u)
    else (u - r, p) :: rest

/-- One iteration of the transaction loop of `_calculate_fifo_cost_basis`.
A buy appends a lot.  A sell runs the consume loop; when `units ≤ 0` the
`while` guard fails before `buy_lots[fund]` is ever read, so the
`defaultdict` is not touched. -/
def fifoStep (m : LotMap) (t : Txn) : LotMap :=
  if t.txnType = "buy" then
    let m' := touch m t.fundId
    setLots m' t.fundId (getLots m' t.fundId ++ [(t.units, t.price)])
  else
    if 0 < t.units then
      let m' := touch m t.fundId
      setLots m' t.fundId (consumeLots (getLots m' t.fundId) t.units)
    else m

/-- The state of `buy_lots` after the whole transaction loop. -/
def runFifo (ts : List Txn) : LotMap :=
  ts.foldl fifoStep []

/-- Sum of `units_remaining` over a queue of lots. -/
def lotsUnits (lots : List Lot) : ℚ :=
  (lots.map Prod.fst).sum

/-- `sum(lot_units * lot_price for ...)` over a queue of lots. -/
def lotsCost (lots : List Lot) : ℚ :=
  (lots.map fun l => l.1 * l.2).sum

/-- The `per_fund_cost_basis` dict returned by `_calculate_fifo_cost_basis`. -/
def perFundCostBasis (ts : List Txn) : List (Nat × ℚ) :=
  (runFifo ts).map fun e => (e.1, lotsCost e.2)

/-- The `total_cost_basis` returned by `_calculate_fifo_cost_basis`
(accumulated over the same iteration that builds the per-fund dict). -/
def totalCostBasis (ts : List Txn) : ℚ :=
  ((runFifo ts).map fun e => lotsCost e.2).sum

/-- Units bought for fund `k` over a transaction list. -/
def boughtOf (k : Nat) (ts : List Txn) : ℚ :=
  ((ts.filter fun t => t.fundId = k ∧ t.txnType = "buy").map Txn.units).sum

/-- Units sold for fund `k` over a transaction list. -/
def soldOf (k : Nat) (ts : List Txn) : ℚ :=
  ((ts.filter fun t => t.fundId = k ∧ ¬t.txnType = "buy").map Txn.units).sum

/-- The buy lots of fund `k`, in transaction order. -/
def buyLotsOf (k : Nat) (ts : List Txn) : List Lot :=
  (ts.filter fun t => t.fundId = k ∧ t.txnType = "buy").map fun t => (t.units, t.price)

/-- Spec-side reading of "sells always consume the oldest lots first":
remove `sold` units from the front of the acquisition-ordered lot list,
dropping a lot once exhausted and splitting the first surviving lot. -/
def specConsumeOldest (sold : ℚ) : List Lot → List Lot
  | [] => []
  | (u, c) :: later =>
    if sold ≤ 0 then (u, c) :: later
    else if u ≤ sold then specConsumeOldest (sold - u) later
    else (u - sold, c) :: later

/-! ### Keys of the lot map -/

/-- The keys of the `buy_lots` dict, in insertion order. -/
def keysOf (m : LotMap) : List Nat := m.map Prod.fst

/-- The distinct fund identifiers mentioned by a transaction list. -/
def fundsOf (ts : List Txn) : List Nat := (ts.map Txn.fundId).dedup

/-! ## Money-weighted return (`_calculate_mwr`)

The external `pyxirr.xirr` call is abstracted as a `solver` parameter; a
`none` result models all of: the solver returning `None`, a non-finite
result (rejected by the `np.isfinite` check), and a raised exception
(swallowed by the `try/except`). -/

/-- Python's `max(dates)` over a nonempty list `d₀ :: ds`. -/
def maxDate (d₀ : ℤ) (ds : List ℤ) : ℤ := ds.foldl max d₀

/-- The date list handed to the XIRR solver: the cash-flow dates, then — when
`current_value > 0` — the synthetic liquidation date: wall-clock today, or
`max(dates) + 1` when today is not strictly after every existing date. -/
def mwrDates (today : ℤ) (flows : List (ℤ × ℚ)) (cv : ℚ) : List ℤ :=
  let ds := flows.map Prod.fst
  if 0 < cv then
    match ds with
    | [] => [today]
    | d₀ :: rest =>
      (d₀ :: rest) ++ [if today ≤ maxDate d₀ rest then maxDate d₀ rest + 1 else today]
  else ds

/-- The amount list handed to the XIRR solver: the signed cash-flow amounts,
then the current portfolio value when it is positive. -/
def mwrAmounts (flows : List (ℤ × ℚ)) (cv : ℚ) : List ℚ :=
  flows.map Prod.snd ++ (if 0 < cv then [cv] else [])

/-- `_calculate_mwr`: `None` on empty flows, `None` unless the amounts hold
at least one negative and one positive value, otherwise the solver's result
(`none` covering non-convergence and non-finite roots). -/
def calcMwr (solver : List ℤ → List ℚ → Option ℚ) (today : ℤ)
    (flows : List (ℤ × ℚ)) (cv : ℚ) : Option ℚ :=
  if flows.isEmpty then none
  else
    if ¬(((mwrAmounts flows cv).any fun a => a < 0)
        ∧ ((mwrAmounts flows cv).any fun a => 0 < a)) then none
    else solver (mwrDates today flows cv) (mwrAmounts flows cv)

/-! ## Metrics calculator (`calculate_metrics`) -/

/-- The metrics bundle (`PerformanceMetrics` schema); `Option` fields are
nullable in the source, and `volatility` is an `Option` because a single
valid daily return makes the sample standard deviation a float `NaN`. -/
structure PerformanceMetrics where
  daily_return : ℚ
  volatility : Option ℚ
  max_drawdown : ℚ
  sharpe : Option ℚ
  net_return : ℚ
  unrealized_roi : ℚ
  twr_annualized : Option ℚ
  mwr_annualized : Option ℚ
  best_day : Option ℚ
  worst_day : Option ℚ
  deriving Repr, DecidableEq

/-- Insert a history row into a date-sorted list, after any equal dates. -/
def insertByDate (x : ℤ × ℚ) : List (ℤ × ℚ) → List (ℤ × ℚ)
  | [] => [x]
  | y :: ys => if y.1 ≤ x.1 then y :: insertByDate x ys else x :: y :: ys

/-- `df.sort_values('date')` over the history rows. -/
def sortByDate : List (ℤ × ℚ) → List (ℤ × ℚ)
  | [] => []
  | x :: xs => insertByDate x (sortByDate xs)

/-- `df_positive`: the sorted curve restricted to days with value > 0. -/
def dfPositive (history : List (ℤ × ℚ)) : List (ℤ × ℚ) :=
  (sortByDate history).filter fun e => 0 < e.2

/-- Rows after the first, each carrying `pct_change` from its predecessor. -/
def withReturnsAux (prev : ℤ × ℚ) : List (ℤ × ℚ) → List (ℤ × ℚ × Option ℚ)
  | [] => []
  | r :: rest => (r.1, r.2, some ((r.2 - prev.2) / prev.2)) :: withReturnsAux r rest

/-- The `daily_return` column of `df_positive`: `NaN` (`none`) on the first
row, day-over-day percentage change afterwards.  Over positive values the
`replace([inf, -inf], nan)` step of the source is vacuous: the denominator
is never zero. -/
def withReturns : List (ℤ × ℚ) → List (ℤ × ℚ × Option ℚ)
  | [] => []
  | r :: rest => (r.1, r.2, none) :: withReturnsAux r rest

/-- The non-`NaN` daily returns of `df_no_txn` (transaction days excluded),
in row order — exactly the values pandas `mean`/`std`/`dropna` see. -/
def validReturns (history : List (ℤ × ℚ)) (txnDates : List ℤ) : List ℚ :=
  ((withReturns (dfPositive history)).filter fun e => e.1 ∉ txnDates).filterMap
    fun e => e.2.2

/-- Arithmetic mean (used only on nonempty lists). -/
def meanOf (l : List ℚ) : ℚ := l.sum / l.length

/-- pandas sample standard deviation (`ddof = 1`): `NaN` (`none`) with fewer
than two values, else `sqrt(Σ (x - mean)² / (n - 1))` through the abstract
float square root. -/
def sampleStd (sqrtFn : ℚ → ℚ) (l : List ℚ) : Option ℚ :=
  if l.length < 2 then none
  else some (sqrtFn ((l.map fun x => (x - meanOf l) ^ 2).sum / ((l.length : ℚ) - 1)))

/-- `series.max()` with `None` on an empty series. -/
def listMax : List ℚ → Option ℚ
  | [] => none
  | x :: xs => some (xs.foldl max x)

/-- `series.min()` with `None` on an empty series. -/
def listMin : List ℚ → Option ℚ
  | [] => none
  | x :: xs => some (xs.foldl min x)

/-- `(value - expanding_max) / expanding_max` with running maximum `rm`. -/
def drawdownsFrom (rm : ℚ) : List ℚ → List ℚ
  | [] => []
  | v :: rest => ((v - max rm v) / max rm v) :: drawdownsFrom (max rm v) rest

/-- The drawdown column over the positive-value curve. -/
def drawdowns : List (ℤ × ℚ) → List ℚ
  | [] => []
  | r :: rest => drawdownsFrom r.2 (r.2 :: rest.map Prod.snd)

/-- Ascending insertion into a sorted list of dates. -/
def insertInt (x : ℤ) : List ℤ → List ℤ
  | [] => [x]
  | y :: ys => if x ≤ y then x :: y :: ys else y :: insertInt x ys

/-- Ascending sort, for `sorted(txn_date_set & df_dates)`. -/
def sortInts (l : List ℤ) : List ℤ := l.foldr insertInt []

/-- `sorted(txn_date_set & set(df_positive.date))`. -/
def relevantTxnDates (dfPos : List (ℤ × ℚ)) (txnDates : List ℤ) : List ℤ :=
  sortInts (txnDates.dedup.filter fun d => d ∈ dfPos.map Prod.fst)

/-- The middle/final TWR sub-period ratios: for each transaction date, the
ratio of the last value before the next transaction (or of the range) to the
value on the transaction day itself (post-cash-flow). -/
def subPeriodRatios (dfPos : List (ℤ × ℚ)) : List ℤ → List ℚ
  | [] => []
  | d :: ds =>
    match dfPos.filter fun e => e.1 = d with
    | [] => subPeriodRatios dfPos ds
    | r :: _ =>
      let period := match ds with
        | next :: _ => dfPos.filter fun (e : ℤ × ℚ) => d ≤ e.1 ∧ e.1 < next
        | [] => dfPos.filter fun (e : ℤ × ℚ) => d ≤ e.1
      if 1 ≤ period.length ∧ 0 < r.2 then
        (match period.getLast? with
          | some lastRow => [lastRow.2 / r.2]
          | none => []) ++ subPeriodRatios dfPos ds
      else subPeriodRatios dfPos ds

/-- `_calculate_twr`, with the float `**` operator abstracted as `rpow`. -/
def calcTwr (rpow : ℚ → ℚ → ℚ) (dfPos : List (ℤ × ℚ)) (txnDates : List ℤ) : Option ℚ :=
  if dfPos.length < 2 then none
  else
    match dfPos with
    | [] => none
    | first :: rest =>
      let lastRow := (first :: rest).getLast (by simp)
      match relevantTxnDates (first :: rest) txnDates with
      | [] =>
        if first.2 ≤ 0 then none
        else
          let totalReturn := lastRow.2 / first.2 - 1
          let days := lastRow.1 - first.1
          if days ≤ 0 then none
          else some (rpow (1 + totalReturn) (365 / (days : ℚ)) - 1)
      | firstTxn :: laterTxns =>
        let preFirst := (first :: rest).filter fun e => e.1 < firstTxn
        let firstRatio : List ℚ :=
          match preFirst with
          | [] => []
          | q :: qs => if 0 < q.2 then [((q :: qs).getLast (by simp)).2 / q.2] else []
        let ratios := firstRatio ++ subPeriodRatios (first :: rest) (firstTxn :: laterTxns)
        if ratios = [] then none
        else
          let linked := ratios.foldl (· * ·) 1
          let days := lastRow.1 - first.1
          if days ≤ 0 then none
          else some (rpow (1 + (linked - 1)) (365 / (days : ℚ)) - 1)

/-- The zero/`None`-filled bundle returned on degenerate input (net return
and unrealized ROI are still computed from the scalar inputs). -/
def emptyMetricsWith (netReturn unrealized : ℚ) : PerformanceMetrics :=
  ⟨0, some 0, 0, none, netReturn, unrealized, none, none, none, none⟩

/-- `calculate_metrics`.  External float operations are parameters:
`sqrtFn` for `numpy.sqrt`, `rpow` for `**`, `solver` for `pyxirr.xirr`;
`today` is the wall-clock date read by `_calculate_mwr`. -/
def calcMetrics (sqrtFn : ℚ → ℚ) (rpow : ℚ → ℚ → ℚ)
    (solver : List ℤ → List ℚ → Option ℚ) (today : ℤ)
    (history : List (ℤ × ℚ)) (txnDates : List ℤ) (cashFlows : List (ℤ × ℚ))
    (totalInvested totalWithdrawn currentValue costBasis riskFree : ℚ) :
    PerformanceMetrics :=
  let netReturn := if 0 < totalInvested
    then (currentValue + totalWithdrawn - totalInvested) / totalInvested else 0
  let unrealized := if 0 < costBasis then (currentValue - costBasis) / costBasis else 0
  if history.length < 2 then emptyMetricsWith netReturn unrealized
  else
    if (dfPositive history).length < 2 then emptyMetricsWith netReturn unrealized
    else
      let valid := validReturns history txnDates
      let dailyReturn := if valid.isEmpty then 0 else meanOf valid
      let vol : Option ℚ := if valid.isEmpty then some 0
        else match sampleStd sqrtFn valid with
          | none => none
          | some s => some (s * sqrtFn 252)
      let sharpeV : Option ℚ := match vol with
        | some v => if 0 < v then some ((dailyReturn * 252 - riskFree) / v) else none
        | none => none
      { daily_return := dailyReturn
        volatility := vol
        max_drawdown := (listMin (drawdowns (dfPositive history))).getD 0
        sharpe := sharpeV
        net_return := netReturn
        unrealized_roi := unrealized
        twr_annualized := calcTwr rpow (dfPositive history) txnDates
        mwr_annualized := calcMwr solver today cashFlows currentValue
        best_day := listMax valid
        worst_day := listMin valid }

/-! ### Spec-side definitions for the daily-return / volatility claim -/

/-- Spec reading of the valid daily returns: day-over-day percentage changes
of the positive-value-filtered equity curve, kept only where the later day is
not a transaction day.  (±infinite changes cannot arise over exact rationals
because the filtered curve is everywhere positive, so the spec's "drop the
infinities" clause is vacuous here.) -/
def specValidReturns (history : List (ℤ × ℚ)) (txnDates : List ℤ) : List ℚ :=
  (((dfPositive history).zip (dfPositive history).tail).filter
      fun pr => pr.2.1 ∉ txnDates).map
    fun pr => (pr.2.2 - pr.1.2) / pr.1.2

/-- Spec reading of `daily_return`: arithmetic mean of the valid returns,
0 when none exist. -/
def specDailyReturn (history : List (ℤ × ℚ)) (txnDates : List ℤ) : ℚ :=
  if specValidReturns history txnDates = [] then 0
  else meanOf (specValidReturns history txnDates)

/-- Spec reading of `volatility`: the (sample) standard deviation of the
same valid returns × √252, the degenerate 0 when no valid return exists, and
`NaN` (`none`) when the standard deviation of a single value is undefined. -/
def specVolatility (sqrtFn : ℚ → ℚ) (history : List (ℤ × ℚ)) (txnDates : List ℤ) :
    Option ℚ :=
  if specValidReturns history txnDates = [] then some 0
  else match sampleStd sqrtFn (specValidReturns history txnDates) with
    | none => none
    | some s => some (s * sqrtFn 252)

/-- First-order (simple-interest) rational model of an XIRR solver: the root
of `Σ aᵢ (1 + r·tᵢ/365) = 0` with `tᵢ` the day span from the first flow.
Like the real annualized-rate solver, its root depends on the flow dates. -/
def linearRateSolver (dates : List ℤ) (amounts : List ℚ) : Option ℚ :=
  match dates with
  | [] => none
  | d₀ :: _ =>
    let weighted := ((dates.zip amounts).map
      fun (e : ℤ × ℚ) => e.2 * (((e.1 - d₀ : ℤ) : ℚ) / 365)).sum
    if weighted = 0 then none else some (-amounts.sum / weighted)

/-! ## Equity curve (`get_portfolio_history`) -/

/-- Signed unit delta of a transaction (+units for buy, −units otherwise). -/
def signedUnits (t : Txn) : ℚ := if t.txnType = "buy" then t.units else -t.units

/-- Net holdings of fund `f` on date `d`: the running total of signed unit
deltas dated on or before `d`.  This is the composite meaning of the
source's `groupby`/`pivot`/`fillna(0)`/`cumsum`/`reindex`/`ffill`/`fillna(0)`
pipeline: at every grid date the forward-filled cumulative sum equals the
sum of all deltas dated on or before it (0 before the first transaction). -/
def holdingsAt (txns : List Txn) (f : Nat) (d : ℤ) : ℚ :=
  ((txns.filter fun t => t.fundId = f ∧ t.txnDate ≤ d).map signedUnits).sum

/-- The price of fund `f` dated exactly `d`, if any.  The prices table is
unique per (fund, date) — `UniqueConstraint('unit_trust_id', 'date')` — and
the pivot would raise on duplicates, so `find?` is exact. -/
def priceOn (prices : List PriceRow) (f : Nat) (d : ℤ) : Option ℚ :=
  (prices.find? fun p => p.fundId = f ∧ p.pdate = d).map PriceRow.price

/-- Walk `n` dates downward from `d` and return the first price found — the
cell that `reindex().ffill()` leaves at `d` on a grid whose scan floor is
`d - n + 1`. -/
def searchBack (lookup : ℤ → Option ℚ) : ℤ → Nat → Option ℚ
  | _, 0 => none
  | d, n + 1 =>
    match lookup d with
    | some x => some x
    | none => searchBack lookup (d - 1) n

/-- The forward-filled price cell for fund `f` at grid date `d`, on the grid
starting at `lo`: `NaN` (`none`) while no price has occurred yet. -/
def ffillPrice (prices : List PriceRow) (f : Nat) (lo d : ℤ) : Option ℚ :=
  searchBack (priceOn prices f) d ((d - lo).toNat + 1)

/-- The reindex-and-forward-fill pass itself: one cell per consecutive grid
day, carrying the last seen value forward. -/
def ffillSeries (lookup : ℤ → Option ℚ) : Option ℚ → ℤ → Nat → List (ℤ × Option ℚ)
  | _, _, 0 => []
  | carry, d, n + 1 =>
    match lookup d with
    | some x => (d, some x) :: ffillSeries lookup (some x) (d + 1) n
    | none => (d, carry) :: ffillSeries lookup carry (d + 1) n

/-- One cell of `(positive_holdings * prices_pivot).fillna(0)`: holdings
clamped at 0; a missing (never-yet-priced) cell contributes 0. -/
def cellValue (txns : List Txn) (prices : List PriceRow) (lo : ℤ) (f : Nat) (d : ℤ) : ℚ :=
  match ffillPrice prices f lo d with
  | none => 0
  | some p => max (holdingsAt txns f d) 0 * p

/-- `.sum(axis=1)` over the funds of both pivots. -/
def dayValue (txns : List Txn) (prices : List PriceRow) (funds : List Nat) (lo d : ℤ) : ℚ :=
  (funds.map fun f => cellValue txns prices lo f d).sum

/-- Python's `min(...)` over a nonempty list `d₀ :: ds`. -/
def minDate (d₀ : ℤ) (ds : List ℤ) : ℤ := ds.foldl min d₀

/-- The funds appearing in both the holdings and the price pivots
(`columns.intersection`). -/
def commonFunds (txns : List Txn) (prices : List PriceRow) : List Nat :=
  (txns.map Txn.fundId).dedup.filter fun f => prices.any fun p => p.fundId = f

/-- The price rows the method actually fetches: the query filters
`Price.date >= earliest_txn_date`. -/
def fetchedPrices (t₀ : Txn) (trest : List Txn) (prices : List PriceRow) : List PriceRow :=
  prices.filter fun p => minDate t₀.txnDate (trest.map Txn.txnDate) ≤ p.pdate

/-- Start of the common date grid:
`min(holdings.index.min(), prices.index.min())`. -/
def gridLo (t₀ : Txn) (trest : List Txn) (p₀ : PriceRow) (prest : List PriceRow) : ℤ :=
  min (minDate t₀.txnDate (trest.map Txn.txnDate))
    (minDate p₀.pdate (prest.map PriceRow.pdate))

/-- End of the common date grid:
`max(holdings.index.max(), prices.index.max(), end_date.date())`. -/
def gridHi (t₀ : Txn) (trest : List Txn) (p₀ : PriceRow) (prest : List PriceRow)
    (today : ℤ) : ℤ :=
  max (maxDate t₀.txnDate (trest.map Txn.txnDate))
    (max (maxDate p₀.pdate (prest.map PriceRow.pdate)) today)

/-- `get_portfolio_history`: [] without transactions; [] when the price
fetch (dated from the earliest transaction) is empty; otherwise one point
per calendar day of the full grid, valued from clamped holdings times
forward-filled fetched prices, restricted to dates ≥ today − days. -/
def portfolioHistory (txns : List Txn) (prices : List PriceRow) (today : ℤ)
    (days : Nat) : List (ℤ × ℚ) :=
  match txns with
  | [] => []
  | t₀ :: trest =>
    match fetchedPrices t₀ trest prices with
    | [] => []
    | p₀ :: prest =>
      ((List.range ((gridHi t₀ trest p₀ prest today - gridLo t₀ trest p₀ prest).toNat + 1)).map
        fun (i : ℕ) => (gridLo t₀ trest p₀ prest + (i : ℤ),
          dayValue (t₀ :: trest) (p₀ :: prest) (commonFunds (t₀ :: trest) (p₀ :: prest))
            (gridLo t₀ trest p₀ prest) (gridLo t₀ trest p₀ prest + (i : ℤ)))).filter
        fun (e : ℤ × ℚ) => today - (days : ℤ) ≤ e.1

/-! # Part 2 — lemmas, claim theorems, witnesses and counterexamples -/

/-! ## FIFO engine: basic facts and sanity checks -/

/-- The two transaction-type strings that actually occur are distinct. -/
@[simp] theorem sell_ne_buy : (("sell" : String) = "buy") = False := by decide

@[simp] theorem decide_sell_eq_buy : decide (("sell" : String) = "buy") = false := by rfl

@[simp] theorem decide_buy_eq_buy : decide (("buy" : String) = "buy") = true := by rfl

-- Sanity: the worked example of the spec (buy 100@10, buy 50@15, sell 120).

example :
    runFifo [⟨1, "buy", 100, 10, 0⟩, ⟨1, "buy", 50, 15, 1⟩, ⟨1, "sell", 120, 12, 2⟩]
      = [(1, [(30, 15)])] := by
  norm_num [runFifo, fifoStep, touch, lookupLots, setLots, getLots, consumeLots]

example :
    totalCostBasis
      [⟨1, "buy", 100, 10, 0⟩, ⟨1, "buy", 50, 15, 1⟩, ⟨1, "sell", 120, 12, 2⟩] = 450 := by
  norm_num [totalCostBasis, lotsCost, runFifo, fifoStep, touch, lookupLots, setLots, getLots,
    consumeLots]

/-! ### Lot-map lemmas -/

theorem lookupLots_append (m l : LotMap) (k : Nat) :
    lookupLots (m ++ l) k =
      match lookupLots m k with
      | some v => some v
      | none => lookupLots l k := by
  induction m with
  | nil => simp [lookupLots]
  | cons e rest ih =>
    obtain ⟨k', v⟩ := e
    by_cases h : k' = k <;> simp [lookupLots, h, ih]

theorem getLots_touch (m : LotMap) (k k' : Nat) :
    getLots (touch m k) k' = getLots m k' := by
  unfold touch
  cases h : lookupLots m k with
  | some v => rfl
  | none =>
    unfold getLots
    rw [lookupLots_append]
    cases h' : lookupLots m k' with
    | some w => rfl
    | none =>
      by_cases hk : k = k' <;> simp [lookupLots, hk]

theorem lookupLots_touch_self (m : LotMap) (k : Nat) :
    lookupLots (touch m k) k = some (getLots m k) := by
  unfold touch
  cases h : lookupLots m k with
  | some v => simp [getLots, h]
  | none => simp [lookupLots_append, h, lookupLots, getLots]

theorem lookupLots_setLots_self (m : LotMap) (k : Nat) (v w : List Lot)
    (h : lookupLots m k = some w) : lookupLots (setLots m k v) k = some v := by
  induction m generalizing w with
  | nil => simp [lookupLots] at h
  | cons e rest ih =>
    obtain ⟨a, b⟩ := e
    by_cases ha : a = k
    · simp [setLots, lookupLots, ha]
    · simp only [lookupLots, if_neg ha] at h
      simp only [setLots, if_neg ha, lookupLots, if_neg ha]
      exact ih w h

theorem lookupLots_setLots_ne (m : LotMap) (k k' : Nat) (v : List Lot) (h : k' ≠ k) :
    lookupLots (setLots m k v) k' = lookupLots m k' := by
  have h2 : ¬ (k = k') := fun hc => h hc.symm
  induction m with
  | nil => simp [setLots]
  | cons e rest ih =>
    obtain ⟨a, b⟩ := e
    by_cases ha : a = k
    · subst ha
      simp [setLots, lookupLots, h2, ih]
    · simp [setLots, lookupLots, ha, ih]

theorem getLots_eq_of_lookup (m : LotMap) (k : Nat) (v : List Lot)
    (h : lookupLots m k = some v) : getLots m k = v := by
  simp [getLots, h]

theorem getLots_setLots_ne (m : LotMap) (k k' : Nat) (v : List Lot) (h : k' ≠ k) :
    getLots (setLots m k v) k' = getLots m k' := by
  simp [getLots, lookupLots_setLots_ne m k k' v h]

/-- Effect of one loop iteration on the queue of the transacted fund. -/
theorem getLots_fifoStep_self (m : LotMap) (t : Txn) :
    getLots (fifoStep m t) t.fundId =
      if t.txnType = "buy" then getLots m t.fundId ++ [(t.units, t.price)]
      else if 0 < t.units then consumeLots (getLots m t.fundId) t.units
      else getLots m t.fundId := by
  unfold fifoStep
  by_cases hb : t.txnType = "buy"
  · simp only [hb, if_true]
    rw [getLots_touch]
    have h₁ := lookupLots_touch_self m t.fundId
    exact getLots_eq_of_lookup _ _ _
      (lookupLots_setLots_self (touch m t.fundId) t.fundId
        (getLots m t.fundId ++ [(t.units, t.price)]) _ h₁)
  · by_cases hu : 0 < t.units
    · simp only [hb, if_false, hu, if_true]
      rw [getLots_touch]
      have h₁ := lookupLots_touch_self m t.fundId
      exact getLots_eq_of_lookup _ _ _
        (lookupLots_setLots_self (touch m t.fundId) t.fundId
          (consumeLots (getLots m t.fundId) t.units) _ h₁)
    · simp [hb, hu]

/-- A loop iteration leaves every other fund's queue unchanged. -/
theorem getLots_fifoStep_ne (m : LotMap) (t : Txn) (k : Nat) (h : k ≠ t.fundId) :
    getLots (fifoStep m t) k = getLots m k := by
  unfold fifoStep
  by_cases hb : t.txnType = "buy"
  · simp only [hb, if_true]
    rw [getLots_setLots_ne _ _ _ _ h, getLots_touch]
  · by_cases hu : 0 < t.units
    · simp only [hb, if_false, hu, if_true]
      rw [getLots_setLots_ne _ _ _ _ h, getLots_touch]
    · simp [hb, hu]

/-! ### The consume loop -/

@[simp] theorem lotsUnits_nil : lotsUnits [] = 0 := rfl

@[simp] theorem lotsUnits_cons (l : Lot) (rest : List Lot) :
    lotsUnits (l :: rest) = l.1 + lotsUnits rest := by
  simp [lotsUnits]

@[simp] theorem lotsUnits_append (a b : List Lot) :
    lotsUnits (a ++ b) = lotsUnits a + lotsUnits b := by
  simp [lotsUnits]

theorem consumeLots_nonpos (lots : List Lot) (r : ℚ) (h : r ≤ 0) :
    consumeLots lots r = lots := by
  cases lots with
  | nil => rfl
  | cons l rest =>
    obtain ⟨u, p⟩ := l
    simp [consumeLots, h]

/-- Consuming never touches lots past the demanded total: a later lot is
unaffected when the earlier ones can absorb the whole sell. -/
theorem consumeLots_append (lots : List Lot) (l : Lot) (r : ℚ)
    (h0 : 0 ≤ r) (h1 : r ≤ lotsUnits lots) :
    consumeLots (lots ++ [l]) r = consumeLots lots r ++ [l] := by
  induction lots generalizing r with
  | nil =>
    have : r = 0 := le_antisymm (by simpa using h1) h0
    subst this
    obtain ⟨u, p⟩ := l
    simp [consumeLots]
  | cons hd rest ih =>
    obtain ⟨u, p⟩ := hd
    by_cases hr : r ≤ 0
    · simp [consumeLots, hr]
    · by_cases hu : u ≤ r
      · have h0' : 0 ≤ r - u := by linarith
        have h1' : r - u ≤ lotsUnits rest := by
          simp at h1; linarith
        simp [consumeLots, hr, hu, ih (r - u) h0' h1']
      · simp [consumeLots, hr, hu]

/-- Splitting one consumption into two successive ones. -/
theorem consumeLots_add (lots : List Lot) (a b : ℚ) (ha : 0 ≤ a) (hb : 0 ≤ b) :
    consumeLots lots (a + b) = consumeLots (consumeLots lots a) b := by
  induction lots generalizing a with
  | nil => simp [consumeLots]
  | cons hd rest ih =>
    obtain ⟨u, p⟩ := hd
    by_cases ha0 : a ≤ 0
    · have : a = 0 := le_antisymm ha0 ha
      subst this
      rw [consumeLots_nonpos _ 0 le_rfl, zero_add]
    · have hapos : 0 < a := lt_of_not_le ha0
      have habpos : ¬ a + b ≤ 0 := by linarith
      by_cases hu : u ≤ a
      · have hu' : u ≤ a + b := by linarith
        have : a + b - u = (a - u) + b := by ring
        simp only [consumeLots, if_neg habpos, if_pos hu', if_neg ha0, if_pos hu, this]
        exact ih (a - u) (by linarith)
      · have hau : a < u := lt_of_not_le hu
        have hinner : consumeLots ((u, p) :: rest) a = (u - a, p) :: rest := by
          simp [consumeLots, ha0, hu]
        rw [hinner]
        by_cases hb0 : b ≤ 0
        · have : b = 0 := le_antisymm hb0 hb
          subst this
          rw [add_zero, consumeLots_nonpos _ 0 le_rfl]
          simp [consumeLots, ha0, hu]
        · by_cases hub : u - a ≤ b
          · have h1 : u ≤ a + b := by linarith
            have h2 : a + b - u = b - (u - a) := by ring
            simp [consumeLots, habpos, h1, hb0, hub, h2]
          · have h1 : ¬ u ≤ a + b := by linarith
            have h2 : u - (a + b) = u - a - b := by ring
            simp [consumeLots, habpos, h1, hb0, hub, h2]

/-- Units conservation of the consume loop when enough units are available. -/
theorem lotsUnits_consumeLots (lots : List Lot) (r : ℚ)
    (h0 : 0 ≤ r) (h1 : r ≤ lotsUnits lots) :
    lotsUnits (consumeLots lots r) = lotsUnits lots - r := by
  induction lots generalizing r with
  | nil =>
    have : r = 0 := le_antisymm (by simpa using h1) h0
    subst this
    simp [consumeLots]
  | cons hd rest ih =>
    obtain ⟨u, p⟩ := hd
    by_cases hr : r ≤ 0
    · have : r = 0 := le_antisymm hr h0
      subst this
      simp [consumeLots]
    · by_cases hu : u ≤ r
      · have h1' : r - u ≤ lotsUnits rest := by simp at h1; linarith
        simp [consumeLots, hr, hu, ih (r - u) (by linarith) h1']
        ring
      · simp [consumeLots, hr, hu]
        ring

/-- An oversell (demand strictly above what the queues hold) drains the
queue completely. -/
theorem consumeLots_drain (lots : List Lot) (r : ℚ)
    (hnn : ∀ l ∈ lots, 0 ≤ l.1) (h : lotsUnits lots < r) :
    consumeLots lots r = [] := by
  induction lots generalizing r with
  | nil => rfl
  | cons hd rest ih =>
    obtain ⟨u, p⟩ := hd
    have hu : 0 ≤ u := hnn (u, p) (by simp)
    have hrest : 0 ≤ lotsUnits rest := by
      have : ∀ l ∈ rest, 0 ≤ l.1 := fun l hl => hnn l (List.mem_cons_of_mem _ hl)
      unfold lotsUnits
      apply List.sum_nonneg
      intro x hx
      obtain ⟨l, hl, hxx⟩ := List.mem_map.mp hx
      exact hxx ▸ this l hl
    simp only [lotsUnits_cons] at h
    have h1 : ¬ r ≤ 0 := by push_neg; linarith
    have h2 : u ≤ r := by linarith
    simp only [consumeLots, if_neg h1, if_pos h2]
    exact ih (r - u) (fun l hl => hnn l (List.mem_cons_of_mem _ hl)) (by linarith)

/-- The consume loop keeps every remaining lot's unit count nonnegative. -/
theorem consumeLots_nonneg (lots : List Lot) (r : ℚ)
    (hnn : ∀ l ∈ lots, 0 ≤ l.1) : ∀ l ∈ consumeLots lots r, 0 ≤ l.1 := by
  induction lots generalizing r with
  | nil => simp [consumeLots]
  | cons hd rest ih =>
    obtain ⟨u, p⟩ := hd
    by_cases hr : r ≤ 0
    · simpa [consumeLots, hr] using hnn
    · by_cases hu : u ≤ r
      · simp only [consumeLots, if_neg hr, if_pos hu]
        exact ih (r - u) (fun l hl => hnn l (List.mem_cons_of_mem _ hl))
      · intro l hl
        simp only [consumeLots, if_neg hr, if_neg hu] at hl
        rcases List.mem_cons.mp hl with h | h
        · subst h; simp; linarith [lt_of_not_le hu]
        · exact hnn l (List.mem_cons_of_mem _ h)

/-! ### Characterisation of the final lot state -/

theorem runFifo_snoc (ts : List Txn) (t : Txn) :
    runFifo (ts ++ [t]) = fifoStep (runFifo ts) t := by
  simp [runFifo, List.foldl_append]

theorem boughtOf_snoc (k : Nat) (ts : List Txn) (t : Txn) :
    boughtOf k (ts ++ [t]) =
      boughtOf k ts + (if t.fundId = k ∧ t.txnType = "buy" then t.units else 0) := by
  unfold boughtOf
  rw [List.filter_append]
  by_cases h : t.fundId = k ∧ t.txnType = "buy" <;> simp [h]

theorem soldOf_snoc (k : Nat) (ts : List Txn) (t : Txn) :
    soldOf k (ts ++ [t]) =
      soldOf k ts + (if t.fundId = k ∧ ¬t.txnType = "buy" then t.units else 0) := by
  unfold soldOf
  rw [List.filter_append]
  by_cases h : t.fundId = k ∧ ¬t.txnType = "buy" <;> simp [h]

theorem buyLotsOf_snoc (k : Nat) (ts : List Txn) (t : Txn) :
    buyLotsOf k (ts ++ [t]) =
      buyLotsOf k ts ++
        (if t.fundId = k ∧ t.txnType = "buy" then [(t.units, t.price)] else []) := by
  unfold buyLotsOf
  rw [List.filter_append]
  by_cases h : t.fundId = k ∧ t.txnType = "buy" <;> simp [h]

theorem lotsUnits_buyLotsOf (k : Nat) (ts : List Txn) :
    lotsUnits (buyLotsOf k ts) = boughtOf k ts := by
  unfold lotsUnits buyLotsOf boughtOf
  rw [List.map_map]
  rfl

theorem soldOf_nonneg (k : Nat) (ts : List Txn) (hpos : ∀ t ∈ ts, 0 ≤ t.units) :
    0 ≤ soldOf k ts := by
  unfold soldOf
  apply List.sum_nonneg
  intro x hx
  obtain ⟨t, ht, hxx⟩ := List.mem_map.mp hx
  exact hxx ▸ hpos t (List.mem_of_mem_filter ht)

/-- `specConsumeOldest` (the spec's "oldest lots first" discipline) and the
code's consume loop are the same function, with arguments flipped. -/
theorem specConsumeOldest_eq (lots : List Lot) (s : ℚ) :
    specConsumeOldest s lots = consumeLots lots s := by
  induction lots generalizing s with
  | nil => rfl
  | cons hd rest ih =>
    obtain ⟨u, p⟩ := hd
    by_cases hs : s ≤ 0
    · simp [specConsumeOldest, consumeLots, hs]
    · by_cases hu : u ≤ s <;> simp [specConsumeOldest, consumeLots, hs, hu, ih]

/-- Central FIFO lemma: as long as cumulative sells never exceed cumulative
buys for fund `k`, the final queue for `k` is obtained by one single
front-to-back consumption of the fund's buy lots by its total sold units. -/
theorem runFifo_char (ts : List Txn) (k : Nat)
    (hpos : ∀ t ∈ ts, 0 ≤ t.units)
    (hpre : ∀ n, soldOf k (ts.take n) ≤ boughtOf k (ts.take n)) :
    getLots (runFifo ts) k = consumeLots (buyLotsOf k ts) (soldOf k ts) := by
  induction ts using List.reverseRecOn with
  | nil => simp [runFifo, getLots, lookupLots, buyLotsOf, soldOf, consumeLots]
  | append_singleton ts t ih =>
    have hpos' : ∀ t' ∈ ts, 0 ≤ t'.units :=
      fun t' ht' => hpos t' (List.mem_append_left _ ht')
    have hpre' : ∀ n, soldOf k (ts.take n) ≤ boughtOf k (ts.take n) := by
      intro n
      by_cases hn : n ≤ ts.length
      · have := hpre n
        rwa [List.take_append_of_le_length hn] at this
      · have := hpre ts.length
        rw [List.take_append_of_le_length le_rfl, List.take_length] at this
        rwa [List.take_of_length_le (le_of_not_le hn)]
    have hfull : soldOf k ts ≤ boughtOf k ts := by
      have := hpre' ts.length
      rwa [List.take_length] at this
    have hsold0 : 0 ≤ soldOf k ts := soldOf_nonneg k ts hpos'
    have ihc := ih hpos' hpre'
    rw [runFifo_snoc, soldOf_snoc, buyLotsOf_snoc]
    by_cases hk : k = t.fundId
    · subst hk
      rw [getLots_fifoStep_self]
      by_cases hb : t.txnType = "buy"
      · simp only [hb, if_true, and_true, if_pos rfl, not_true, and_false, if_false, add_zero]
        rw [ihc, ← consumeLots_append _ _ _ hsold0 (by rw [lotsUnits_buyLotsOf]; exact hfull)]
      · have hu := hpos t (List.mem_append_right _ (by simp))
        simp only [hb, eq_self_iff_true, not_false_eq_true, and_self, and_false, if_true,
          if_false, List.append_nil]
        by_cases hu0 : 0 < t.units
        · rw [if_pos hu0, ihc, consumeLots_add _ _ _ hsold0 hu]
        · have h0 : t.units = 0 := le_antisymm (le_of_not_lt hu0) hu
          rw [if_neg hu0, ihc, h0, add_zero]
    · rw [getLots_fifoStep_ne _ _ _ hk]
      have hc1 : ¬(t.fundId = k ∧ t.txnType = "buy") := fun hc => hk hc.1.symm
      have hc2 : ¬(t.fundId = k ∧ ¬t.txnType = "buy") := fun hc => hk hc.1.symm
      simp only [hc1, hc2, if_false, add_zero, List.append_nil]
      exact ihc

/-! ### Keys of the lot map: lemmas -/

@[simp] theorem keysOf_nil : keysOf [] = [] := rfl

@[simp] theorem keysOf_cons (e : Nat × List Lot) (rest : LotMap) :
    keysOf (e :: rest) = e.1 :: keysOf rest := rfl

theorem lookupLots_eq_none (m : LotMap) (k : Nat) :
    lookupLots m k = none ↔ k ∉ keysOf m := by
  induction m with
  | nil => simp [lookupLots]
  | cons e rest ih =>
    obtain ⟨a, b⟩ := e
    by_cases ha : a = k
    · subst ha
      simp [lookupLots]
    · have ha' : ¬ k = a := fun h => ha h.symm
      simp [lookupLots, ha, ha', ih]

theorem mem_keysOf_of_lookup (m : LotMap) (k : Nat) (v : List Lot)
    (h : lookupLots m k = some v) : k ∈ keysOf m := by
  by_contra hc
  rw [← lookupLots_eq_none] at hc
  rw [h] at hc
  exact Option.noConfusion hc

theorem keysOf_setLots (m : LotMap) (k : Nat) (v : List Lot) :
    keysOf (setLots m k v) = keysOf m := by
  induction m with
  | nil => rfl
  | cons e rest ih =>
    obtain ⟨a, b⟩ := e
    by_cases ha : a = k <;> simp [setLots, ha, ih]

theorem mem_keysOf_touch (m : LotMap) (k a : Nat) :
    a ∈ keysOf (touch m k) ↔ a ∈ keysOf m ∨ a = k := by
  unfold touch
  cases h : lookupLots m k with
  | some v =>
    constructor
    · exact Or.inl
    · rintro (hm | rfl)
      · exact hm
      · exact mem_keysOf_of_lookup m a v h
  | none => simp [keysOf]

theorem keysOf_touch_nodup (m : LotMap) (k : Nat) (h : (keysOf m).Nodup) :
    (keysOf (touch m k)).Nodup := by
  unfold touch
  cases h' : lookupLots m k with
  | some v => exact h
  | none =>
    have hk : k ∉ keysOf m := (lookupLots_eq_none m k).mp h'
    have happ : keysOf (m ++ [(k, [])]) = keysOf m ++ [k] := by simp [keysOf]
    rw [happ, List.nodup_append]
    refine ⟨h, List.nodup_singleton k, ?_⟩
    intro a ha hb
    simp only [List.mem_singleton] at hb
    subst hb
    exact hk ha

theorem keysOf_fifoStep_nodup (m : LotMap) (t : Txn) (h : (keysOf m).Nodup) :
    (keysOf (fifoStep m t)).Nodup := by
  unfold fifoStep
  by_cases hb : t.txnType = "buy"
  · simpa [hb, keysOf_setLots] using keysOf_touch_nodup m t.fundId h
  · by_cases hu : 0 < t.units
    · simpa [hb, hu, keysOf_setLots] using keysOf_touch_nodup m t.fundId h
    · simpa [hb, hu] using h

theorem keysOf_runFifo_nodup (ts : List Txn) : (keysOf (runFifo ts)).Nodup := by
  suffices h : ∀ m, (keysOf m).Nodup → (keysOf (List.foldl fifoStep m ts)).Nodup by
    exact h [] (by simp [keysOf])
  induction ts with
  | nil => exact fun m hm => hm
  | cons t rest ih =>
    intro m hm
    exact ih (fifoStep m t) (keysOf_fifoStep_nodup m t hm)

theorem mem_keysOf_fifoStep (m : LotMap) (t : Txn) (a : Nat)
    (hcond : t.txnType = "buy" ∨ 0 < t.units) :
    a ∈ keysOf (fifoStep m t) ↔ a ∈ keysOf m ∨ a = t.fundId := by
  unfold fifoStep
  by_cases hb : t.txnType = "buy"
  · simpa [hb, keysOf_setLots] using mem_keysOf_touch m t.fundId a
  · have hu : 0 < t.units := hcond.resolve_left hb
    simpa [hb, hu, keysOf_setLots] using mem_keysOf_touch m t.fundId a

/-- A fund has an entry in the final `buy_lots` dict exactly when some
transaction (of either type, with the schema-guaranteed positive units)
mentions it. -/
theorem mem_keysOf_runFifo (ts : List Txn) (hpos : ∀ t ∈ ts, 0 < t.units) (a : Nat) :
    a ∈ keysOf (runFifo ts) ↔ ∃ t ∈ ts, t.fundId = a := by
  suffices h : ∀ ts' m, (∀ t ∈ ts', 0 < t.units) →
      (a ∈ keysOf (List.foldl fifoStep m ts') ↔ a ∈ keysOf m ∨ ∃ t ∈ ts', t.fundId = a) by
    have := h ts [] hpos
    simpa [keysOf] using this
  intro ts'
  induction ts' with
  | nil => intro m _; simp
  | cons t rest ih =>
    intro m hp
    have hrest : ∀ t' ∈ rest, 0 < t'.units := fun t' ht' => hp t' (List.mem_cons_of_mem _ ht')
    have hstep := mem_keysOf_fifoStep m t a (Or.inr (hp t (List.mem_cons_self _ _)))
    simp only [List.foldl_cons]
    rw [ih (fifoStep m t) hrest, hstep]
    constructor
    · rintro ((hm | rfl) | ⟨t', ht', rfl⟩)
      · exact Or.inl hm
      · exact Or.inr ⟨t, List.mem_cons_self _ _, rfl⟩
      · exact Or.inr ⟨t', List.mem_cons_of_mem _ ht', rfl⟩
    · rintro (hm | ⟨t', ht', rfl⟩)
      · exact Or.inl (Or.inl hm)
      · rcases List.mem_cons.mp ht' with rfl | ht''
        · exact Or.inl (Or.inr rfl)
        · exact Or.inr ⟨t', ht'', rfl⟩

/-- Every lot in the running state keeps a nonnegative unit count. -/
theorem runFifo_units_nonneg (ts : List Txn) (hpos : ∀ t ∈ ts, 0 ≤ t.units) :
    ∀ k, ∀ l ∈ getLots (runFifo ts) k, 0 ≤ l.1 := by
  suffices h : ∀ ts' m, (∀ k, ∀ l ∈ getLots m k, 0 ≤ l.1) → (∀ t ∈ ts', 0 ≤ t.units) →
      ∀ k, ∀ l ∈ getLots (List.foldl fifoStep m ts') k, 0 ≤ l.1 by
    exact h ts [] (by simp [getLots, lookupLots]) hpos
  intro ts'
  induction ts' with
  | nil => exact fun m hm _ => hm
  | cons t rest ih =>
    intro m hm hp
    apply ih (fifoStep m t) _ (fun t' ht' => hp t' (List.mem_cons_of_mem _ ht'))
    intro k l hl
    by_cases hk : k = t.fundId
    · subst hk
      rw [getLots_fifoStep_self] at hl
      by_cases hb : t.txnType = "buy"
      · rw [if_pos hb] at hl
        rcases List.mem_append.mp hl with h | h
        · exact hm _ l h
        · simp at h
          subst h
          exact hp t (List.mem_cons_self _ _)
      · rw [if_neg hb] at hl
        by_cases hu : 0 < t.units
        · rw [if_pos hu] at hl
          exact consumeLots_nonneg _ _ (hm _) l hl
        · rw [if_neg hu] at hl
          exact hm _ l hl
    · rw [getLots_fifoStep_ne _ _ _ hk] at hl
      exact hm k l hl

/-- Summing a function of the queues over the dict's entries is the same as
summing it over the dict's keys, provided the keys are distinct. -/
theorem map_entries_eq_keys (m : LotMap) (f : List Lot → ℚ) (h : (keysOf m).Nodup) :
    (m.map fun e => f e.2).sum = ((keysOf m).map fun a => f (getLots m a)).sum := by
  induction m with
  | nil => simp
  | cons e rest ih =>
    obtain ⟨a, b⟩ := e
    rw [keysOf_cons] at h
    have hna : a ∉ keysOf rest := (List.nodup_cons.mp h).1
    have hrest : (keysOf rest).Nodup := (List.nodup_cons.mp h).2
    simp only [List.map_cons, List.sum_cons, keysOf_cons]
    have h1 : getLots ((a, b) :: rest) a = b := by simp [getLots, lookupLots]
    have h2 : (keysOf rest).map (fun x => f (getLots ((a, b) :: rest) x))
        = (keysOf rest).map fun x => f (getLots rest x) := by
      apply List.map_congr_left
      intro x hx
      have hxa : ¬ a = x := fun hc => hna (hc ▸ hx)
      simp [getLots, lookupLots, hxa]
    rw [h1, h2, ih hrest]

theorem keysOf_runFifo_perm (ts : List Txn) (hpos : ∀ t ∈ ts, 0 < t.units) :
    (keysOf (runFifo ts)).Perm (fundsOf ts) := by
  apply List.perm_of_nodup_nodup_toFinset_eq (keysOf_runFifo_nodup ts) (List.nodup_dedup _)
  ext a
  simp only [List.mem_toFinset, fundsOf, List.mem_dedup, List.mem_map,
    mem_keysOf_runFifo ts hpos a]

theorem lotsUnits_nonneg_of (lots : List Lot) (h : ∀ l ∈ lots, 0 ≤ l.1) :
    0 ≤ lotsUnits lots := by
  unfold lotsUnits
  apply List.sum_nonneg
  intro x hx
  obtain ⟨l, hl, hxx⟩ := List.mem_map.mp hx
  exact hxx ▸ h l hl

/-- When all of fund `k`'s transactions are sells, its queue stays empty. -/
theorem getLots_runFifo_sellsOnly (ts : List Txn) (k : Nat)
    (h : ∀ t ∈ ts, t.fundId = k → ¬ t.txnType = "buy") :
    getLots (runFifo ts) k = [] := by
  suffices haux : ∀ ts' m, (∀ t ∈ ts', t.fundId = k → ¬t.txnType = "buy") →
      getLots m k = [] → getLots (List.foldl fifoStep m ts') k = [] by
    exact haux ts [] h (by simp [getLots, lookupLots])
  intro ts'
  induction ts' with
  | nil => exact fun m _ hm => hm
  | cons t rest ih =>
    intro m hall hm
    apply ih (fifoStep m t) (fun t' ht' => hall t' (List.mem_cons_of_mem _ ht'))
    by_cases hk : k = t.fundId
    · have hb : ¬ t.txnType = "buy" := hall t (List.mem_cons_self _ _) hk.symm
      subst hk
      rw [getLots_fifoStep_self, if_neg hb]
      by_cases hu : 0 < t.units
      · rw [if_pos hu, hm]
        rfl
      · rw [if_neg hu]
        exact hm
    · rw [getLots_fifoStep_ne _ _ _ hk]
      exact hm

/-- Within the dict, an entry's stored queue is what lookup returns for its
key, provided keys are distinct. -/
theorem entry_val_eq_getLots (m : LotMap) (h : (keysOf m).Nodup) :
    ∀ e ∈ m, e.2 = getLots m e.1 := by
  induction m with
  | nil => simp
  | cons hd rest ih =>
    obtain ⟨a, b⟩ := hd
    rw [keysOf_cons] at h
    have hna : a ∉ keysOf rest := (List.nodup_cons.mp h).1
    have hrest : (keysOf rest).Nodup := (List.nodup_cons.mp h).2
    intro e he
    rcases List.mem_cons.mp he with rfl | he'
    · simp [getLots, lookupLots]
    · have hea : ¬ a = e.1 := by
        intro hc
        exact hna (hc ▸ (List.mem_map.mpr ⟨e, he', rfl⟩))
      rw [ih hrest e he']
      simp [getLots, lookupLots, hea]

/-! ## Claim theorems for the FIFO engine -/

/-- C1: for every transaction list sorted by date in which, for each asset,
cumulative sell units never exceed cumulative buy units,
`_calculate_fifo_cost_basis` leaves per asset a lot queue whose remaining
units sum to total bought minus total sold, with sells always consuming the
oldest lots first, and returns a total cost basis equal to the sum over all
assets of the sum over remaining lots of `units_remaining × purchase price`.
(Positive units are guaranteed upstream by the transaction schema's
`units > 0` validation.) -/
theorem fifo_conservation (ts : List Txn) (k : Nat)
    (_hsorted : List.Pairwise (fun a b => a.txnDate ≤ b.txnDate) ts)
    (hpos : ∀ t ∈ ts, 0 < t.units)
    (hpre : ∀ n < ts.length + 1, ∀ a ∈ ts.map Txn.fundId,
        soldOf a (ts.take n) ≤ boughtOf a (ts.take n)) :
    lotsUnits (getLots (runFifo ts) k) = boughtOf k ts - soldOf k ts
      ∧ getLots (runFifo ts) k = specConsumeOldest (soldOf k ts) (buyLotsOf k ts)
      ∧ totalCostBasis ts
          = ((fundsOf ts).map fun a => lotsCost (getLots (runFifo ts) a)).sum := by
  have hpos' : ∀ t ∈ ts, 0 ≤ t.units := fun t ht => le_of_lt (hpos t ht)
  have hpre' : ∀ a ∈ ts.map Txn.fundId, ∀ n,
      soldOf a (ts.take n) ≤ boughtOf a (ts.take n) := by
    intro a ha n
    by_cases hn : n < ts.length + 1
    · exact hpre n hn a ha
    · have h1 : ts.take n = ts := List.take_of_length_le (by omega)
      have h2 := hpre ts.length (by omega) a ha
      rw [List.take_length] at h2
      rw [h1]
      exact h2
  have hnofund : ∀ a, a ∉ ts.map Txn.fundId →
      buyLotsOf a ts = [] ∧ soldOf a ts = 0 ∧ getLots (runFifo ts) a = [] := by
    intro a ha
    have hng : ∀ t ∈ ts, ¬ (t.fundId = a) := by
      intro t ht hc
      exact ha (List.mem_map.mpr ⟨t, ht, hc⟩)
    refine ⟨?_, ?_, ?_⟩
    · unfold buyLotsOf
      have hf : (ts.filter fun t => t.fundId = a ∧ t.txnType = "buy") = [] := by
        apply List.filter_eq_nil_iff.mpr
        intro t ht
        simp only [Bool.and_eq_true, decide_eq_true_eq, not_and]
        intro hc
        exact absurd hc (hng t ht)
      rw [hf, List.map_nil]
    · unfold soldOf
      have hf : (ts.filter fun t => t.fundId = a ∧ ¬t.txnType = "buy") = [] := by
        apply List.filter_eq_nil_iff.mpr
        intro t ht
        simp only [Bool.and_eq_true, decide_eq_true_eq, not_and]
        intro hc
        exact absurd hc (hng t ht)
      rw [hf, List.map_nil, List.sum_nil]
    · have hnk : a ∉ keysOf (runFifo ts) := by
        rw [mem_keysOf_runFifo ts hpos a]
        rintro ⟨t, ht, rfl⟩
        exact hng t ht rfl
      have hn := (lookupLots_eq_none _ a).mpr hnk
      simp [getLots, hn]
  have hchar : ∀ a, getLots (runFifo ts) a = consumeLots (buyLotsOf a ts) (soldOf a ts) := by
    intro a
    by_cases ha : a ∈ ts.map Txn.fundId
    · exact runFifo_char ts a hpos' (hpre' a ha)
    · obtain ⟨h1, h2, h3⟩ := hnofund a ha
      rw [h1, h2, h3]
      rfl
  have hfull : soldOf k ts ≤ boughtOf k ts := by
    by_cases hk : k ∈ ts.map Txn.fundId
    · have := hpre' k hk ts.length
      rwa [List.take_length] at this
    · obtain ⟨h1, h2, -⟩ := hnofund k hk
      rw [h2, ← lotsUnits_buyLotsOf, h1]
      simp [lotsUnits]
  have hsnonneg : 0 ≤ soldOf k ts := soldOf_nonneg k ts hpos'
  refine ⟨?_, ?_, ?_⟩
  · rw [hchar k,
      lotsUnits_consumeLots _ _ hsnonneg (by rw [lotsUnits_buyLotsOf]; exact hfull),
      lotsUnits_buyLotsOf]
  · rw [hchar k, specConsumeOldest_eq]
  · have h1 : totalCostBasis ts
        = ((keysOf (runFifo ts)).map fun a => lotsCost (getLots (runFifo ts) a)).sum :=
      map_entries_eq_keys (runFifo ts) lotsCost (keysOf_runFifo_nodup ts)
    rw [h1]
    exact List.Perm.sum_eq ((keysOf_runFifo_perm ts hpos).map _)

/-- Witness for C1: the spec's worked example (buy 100@10, buy 50@15,
sell 120 → 30 remaining units of the second lot, cost basis 450). -/
theorem fifo_conservation_witness :
    lotsUnits (getLots (runFifo
        [⟨1, "buy", 100, 10, 0⟩, ⟨1, "buy", 50, 15, 1⟩, ⟨1, "sell", 120, 12, 2⟩]) 1)
      = boughtOf 1 [⟨1, "buy", 100, 10, 0⟩, ⟨1, "buy", 50, 15, 1⟩, ⟨1, "sell", 120, 12, 2⟩]
        - soldOf 1 [⟨1, "buy", 100, 10, 0⟩, ⟨1, "buy", 50, 15, 1⟩, ⟨1, "sell", 120, 12, 2⟩]
    ∧ getLots (runFifo
        [⟨1, "buy", 100, 10, 0⟩, ⟨1, "buy", 50, 15, 1⟩, ⟨1, "sell", 120, 12, 2⟩]) 1
      = specConsumeOldest
          (soldOf 1 [⟨1, "buy", 100, 10, 0⟩, ⟨1, "buy", 50, 15, 1⟩, ⟨1, "sell", 120, 12, 2⟩])
          (buyLotsOf 1 [⟨1, "buy", 100, 10, 0⟩, ⟨1, "buy", 50, 15, 1⟩, ⟨1, "sell", 120, 12, 2⟩])
    ∧ totalCostBasis [⟨1, "buy", 100, 10, 0⟩, ⟨1, "buy", 50, 15, 1⟩, ⟨1, "sell", 120, 12, 2⟩]
      = ((fundsOf [⟨1, "buy", 100, 10, 0⟩, ⟨1, "buy", 50, 15, 1⟩, ⟨1, "sell", 120, 12, 2⟩]).map
          fun a => lotsCost (getLots (runFifo
            [⟨1, "buy", 100, 10, 0⟩, ⟨1, "buy", 50, 15, 1⟩, ⟨1, "sell", 120, 12, 2⟩]) a)).sum :=
  fifo_conservation
    [⟨1, "buy", 100, 10, 0⟩, ⟨1, "buy", 50, 15, 1⟩, ⟨1, "sell", 120, 12, 2⟩] 1
    (by decide) (by decide)
    (by
      intro n hn a ha
      simp only [List.map_cons, List.map_nil, List.mem_cons, List.not_mem_nil, or_false] at ha
      have ha1 : a = 1 := by tauto
      subst ha1
      have hn4 : n < 4 := by simpa using hn
      interval_cases n <;> norm_num [soldOf, boughtOf])

/-- C7: a sell whose quantity strictly exceeds the units available across
the asset's lots (including a sell before any buy) is absorbed without
raising: the asset's lots are drained to empty, the excess is dropped, other
assets are untouched, and processing of later transactions continues from
that state. -/
theorem oversell_drains (ts : List Txn) (t : Txn) (post : List Txn)
    (hpos : ∀ t' ∈ ts, 0 ≤ t'.units)
    (hsell : ¬ t.txnType = "buy")
    (hover : lotsUnits (getLots (runFifo ts) t.fundId) < t.units) :
    getLots (runFifo (ts ++ [t])) t.fundId = []
    ∧ (∀ k, k ≠ t.fundId → getLots (runFifo (ts ++ [t])) k = getLots (runFifo ts) k)
    ∧ runFifo (ts ++ t :: post) = List.foldl fifoStep (runFifo (ts ++ [t])) post := by
  have hnn := runFifo_units_nonneg ts hpos t.fundId
  have h0 : 0 ≤ lotsUnits (getLots (runFifo ts) t.fundId) := lotsUnits_nonneg_of _ hnn
  have hu0 : 0 < t.units := lt_of_le_of_lt h0 hover
  refine ⟨?_, ?_, ?_⟩
  · rw [runFifo_snoc, getLots_fifoStep_self, if_neg hsell, if_pos hu0]
    exact consumeLots_drain _ _ hnn hover
  · intro k hk
    rw [runFifo_snoc, getLots_fifoStep_ne _ _ _ hk]
  · have happ : ts ++ t :: post = (ts ++ [t]) ++ post := by simp
    rw [happ]
    unfold runFifo
    rw [List.foldl_append]

/-- Witness for C7: buy 5 units of fund 1, then sell 8; a later buy of
fund 2 is processed normally from the drained state. -/
theorem oversell_drains_witness :
    getLots (runFifo ([⟨1, "buy", 5, 10, 0⟩] ++ [⟨1, "sell", 8, 9, 1⟩])) 1 = []
    ∧ (∀ k, k ≠ (⟨1, "sell", 8, 9, 1⟩ : Txn).fundId →
        getLots (runFifo ([⟨1, "buy", 5, 10, 0⟩] ++ [⟨1, "sell", 8, 9, 1⟩])) k
          = getLots (runFifo [⟨1, "buy", 5, 10, 0⟩]) k)
    ∧ runFifo ([⟨1, "buy", 5, 10, 0⟩] ++ ⟨1, "sell", 8, 9, 1⟩ :: [⟨2, "buy", 3, 7, 2⟩])
        = List.foldl fifoStep (runFifo ([⟨1, "buy", 5, 10, 0⟩] ++ [⟨1, "sell", 8, 9, 1⟩]))
            [⟨2, "buy", 3, 7, 2⟩] :=
  oversell_drains [⟨1, "buy", 5, 10, 0⟩] ⟨1, "sell", 8, 9, 1⟩ [⟨2, "buy", 3, 7, 2⟩]
    (by decide) (by decide)
    (by norm_num [runFifo, fifoStep, touch, lookupLots, setLots, getLots, consumeLots,
      lotsUnits])

/-- C10: the per-asset breakdown has a key exactly for the assets appearing
in at least one transaction (sells included, with positive units as the
schema guarantees); for every such asset the breakdown value is the cost of
its remaining lot queue, so an asset whose lots were fully drained maps to
cost 0 — in particular a sell-only asset does; and the returned total
always equals the sum of the breakdown's values. -/
theorem breakdown_keys_total (ts : List Txn) (k : Nat)
    (hpos : ∀ t ∈ ts, 0 < t.units) :
    ((k ∈ (perFundCostBasis ts).map Prod.fst) ↔ ∃ t ∈ ts, t.fundId = k)
    ∧ totalCostBasis ts = ((perFundCostBasis ts).map Prod.snd).sum
    ∧ ((∃ t ∈ ts, t.fundId = k) →
        (k, lotsCost (getLots (runFifo ts) k)) ∈ perFundCostBasis ts)
    ∧ (getLots (runFifo ts) k = [] → (∃ t ∈ ts, t.fundId = k) →
        (k, (0 : ℚ)) ∈ perFundCostBasis ts)
    ∧ ((∀ t ∈ ts, t.fundId = k → ¬ t.txnType = "buy") → (∃ t ∈ ts, t.fundId = k) →
        (k, (0 : ℚ)) ∈ perFundCostBasis ts) := by
  have hkeys : (perFundCostBasis ts).map Prod.fst = keysOf (runFifo ts) := by
    simp [perFundCostBasis, keysOf, List.map_map, Function.comp]
  have hgen : (∃ t ∈ ts, t.fundId = k) →
      (k, lotsCost (getLots (runFifo ts) k)) ∈ perFundCostBasis ts := by
    intro hex
    have hk : k ∈ keysOf (runFifo ts) := (mem_keysOf_runFifo ts hpos k).mpr hex
    obtain ⟨e, he, hek⟩ := List.mem_map.mp hk
    have hval := entry_val_eq_getLots (runFifo ts) (keysOf_runFifo_nodup ts) e he
    rw [hek] at hval
    apply List.mem_map.mpr
    refine ⟨e, he, ?_⟩
    rw [← hval, hek]
  have hdrain : getLots (runFifo ts) k = [] → (∃ t ∈ ts, t.fundId = k) →
      (k, (0 : ℚ)) ∈ perFundCostBasis ts := by
    intro hempty hex
    have hmem := hgen hex
    rw [hempty] at hmem
    simpa [lotsCost] using hmem
  refine ⟨?_, ?_, hgen, hdrain, ?_⟩
  · rw [hkeys]
    exact mem_keysOf_runFifo ts hpos k
  · unfold totalCostBasis perFundCostBasis
    rw [List.map_map]
    rfl
  · intro hsells hex
    exact hdrain (getLots_runFifo_sellsOnly ts k hsells) hex

/-- Witness for C10: fund 3 is bought (4 units) and then fully sold, so its
lot queue is drained and its breakdown value is 0.0 even though it has a buy;
fund 1 is sell-only and fund 2 keeps a live lot; the key set matches the
funds with transactions and the total equals the sum of the breakdown. -/
theorem breakdown_keys_total_witness :
    getLots (runFifo [⟨1, "sell", 2, 10, 0⟩, ⟨3, "buy", 4, 5, 1⟩,
        ⟨3, "sell", 4, 6, 2⟩, ⟨2, "buy", 3, 5, 3⟩]) 3 = []
    ∧ (3, (0 : ℚ)) ∈ perFundCostBasis [⟨1, "sell", 2, 10, 0⟩, ⟨3, "buy", 4, 5, 1⟩,
        ⟨3, "sell", 4, 6, 2⟩, ⟨2, "buy", 3, 5, 3⟩]
    ∧ totalCostBasis [⟨1, "sell", 2, 10, 0⟩, ⟨3, "buy", 4, 5, 1⟩,
        ⟨3, "sell", 4, 6, 2⟩, ⟨2, "buy", 3, 5, 3⟩]
      = ((perFundCostBasis [⟨1, "sell", 2, 10, 0⟩, ⟨3, "buy", 4, 5, 1⟩,
          ⟨3, "sell", 4, 6, 2⟩, ⟨2, "buy", 3, 5, 3⟩]).map Prod.snd).sum
    ∧ ((3 ∈ (perFundCostBasis [⟨1, "sell", 2, 10, 0⟩, ⟨3, "buy", 4, 5, 1⟩,
          ⟨3, "sell", 4, 6, 2⟩, ⟨2, "buy", 3, 5, 3⟩]).map Prod.fst) ↔
        ∃ t ∈ [(⟨1, "sell", 2, 10, 0⟩ : Txn), ⟨3, "buy", 4, 5, 1⟩,
          ⟨3, "sell", 4, 6, 2⟩, ⟨2, "buy", 3, 5, 3⟩], t.fundId = 3) := by
  have hempty : getLots (runFifo [⟨1, "sell", 2, 10, 0⟩, ⟨3, "buy", 4, 5, 1⟩,
      ⟨3, "sell", 4, 6, 2⟩, ⟨2, "buy", 3, 5, 3⟩]) 3 = [] := by
    norm_num [runFifo, fifoStep, touch, lookupLots, setLots, getLots, consumeLots]
  have h := breakdown_keys_total [⟨1, "sell", 2, 10, 0⟩, ⟨3, "buy", 4, 5, 1⟩,
      ⟨3, "sell", 4, 6, 2⟩, ⟨2, "buy", 3, 5, 3⟩] 3 (by decide)
  exact ⟨hempty, h.2.2.2.1 hempty ⟨⟨3, "buy", 4, 5, 1⟩, by decide, rfl⟩, h.2.1, h.1⟩

/-! ### Sorting and return-column lemmas -/

theorem insertByDate_perm (x : ℤ × ℚ) (l : List (ℤ × ℚ)) :
    (insertByDate x l).Perm (x :: l) := by
  induction l with
  | nil => simp [insertByDate]
  | cons y ys ih =>
    unfold insertByDate
    by_cases h : y.1 ≤ x.1
    · rw [if_pos h]
      exact (ih.cons y).trans (List.Perm.swap x y ys)
    · rw [if_neg h]

theorem sortByDate_perm (l : List (ℤ × ℚ)) : (sortByDate l).Perm l := by
  induction l with
  | nil => simp [sortByDate]
  | cons x xs ih =>
    exact (insertByDate_perm x (sortByDate xs)).trans (ih.cons x)

theorem zip_tail_nil (l : List (ℤ × ℚ)) (h : l.length < 2) : l.zip l.tail = [] := by
  match l, h with
  | [], _ => rfl
  | [x], _ => rfl

theorem specValidReturns_nil (history : List (ℤ × ℚ)) (txnDates : List ℤ)
    (h : (dfPositive history).length < 2) :
    specValidReturns history txnDates = [] := by
  unfold specValidReturns
  rw [zip_tail_nil _ h]
  rfl

theorem filterMap_filter_none_cons (p : ℤ × ℚ × Option ℚ → Bool) (d : ℤ) (v : ℚ)
    (L : List (ℤ × ℚ × Option ℚ)) :
    ((((d, v, none) : ℤ × ℚ × Option ℚ) :: L).filter p).filterMap (fun e => e.2.2)
      = (L.filter p).filterMap fun e => e.2.2 := by
  rw [List.filter_cons]
  by_cases h : p (d, v, none) = true
  · simp only [h, if_true, List.filterMap_cons]
  · simp only [h, Bool.false_eq_true, if_false]

theorem validReturnsAux_eq_spec (txnDates : List ℤ) (l : List (ℤ × ℚ)) (prev : ℤ × ℚ) :
    ((withReturnsAux prev l).filter fun e => e.1 ∉ txnDates).filterMap (fun e => e.2.2)
      = (((prev :: l).zip l).filter fun pr => pr.2.1 ∉ txnDates).map
          fun pr => (pr.2.2 - pr.1.2) / pr.1.2 := by
  induction l generalizing prev with
  | nil => rfl
  | cons x xs ih =>
    unfold withReturnsAux
    rw [List.zip_cons_cons, List.filter_cons, List.filter_cons]
    by_cases hx : x.1 ∈ txnDates
    · have hd : decide (x.1 ∉ txnDates) = false := by simp [hx]
      simp only [hd, Bool.false_eq_true, if_false]
      exact ih x
    · have hd : decide (x.1 ∉ txnDates) = true := by simp [hx]
      simp only [hd, if_true, List.filterMap_cons, List.map_cons]
      rw [ih x]

/-- The code's valid-return extraction (pct_change over `df_positive`, drop
transaction-day rows, drop `NaN`) equals the spec's consecutive-pair
description. -/
theorem validReturns_eq_spec (history : List (ℤ × ℚ)) (txnDates : List ℤ) :
    validReturns history txnDates = specValidReturns history txnDates := by
  unfold validReturns specValidReturns
  cases hdf : dfPositive history with
  | nil => rfl
  | cons r rest =>
    simp only [withReturns, List.tail_cons]
    rw [filterMap_filter_none_cons]
    exact validReturnsAux_eq_spec txnDates rest r

theorem le_maxDate (d₀ : ℤ) (ds : List ℤ) :
    d₀ ≤ maxDate d₀ ds ∧ ∀ d ∈ ds, d ≤ maxDate d₀ ds := by
  induction ds generalizing d₀ with
  | nil => exact ⟨le_rfl, by simp⟩
  | cons x xs ih =>
    obtain ⟨h1, h2⟩ := ih (max d₀ x)
    refine ⟨le_trans (le_max_left _ _) h1, ?_⟩
    intro d hd
    rcases List.mem_cons.mp hd with rfl | hd'
    · exact le_trans (le_max_right _ _) h1
    · exact h2 d hd'

/-! ## Claim theorems for the metrics calculator -/

/-- C4: the reported `daily_return` is the arithmetic mean of the
day-over-day percentage changes of the positive-value-filtered equity curve
taken only over non-transaction days (0 when no valid return exists, and
with the infinite-change case vacuous over exact arithmetic), and
`volatility` is the (sample) standard deviation of those same returns
multiplied by √252. -/
theorem metrics_daily_return_volatility (sqrtFn : ℚ → ℚ) (rpow : ℚ → ℚ → ℚ)
    (solver : List ℤ → List ℚ → Option ℚ) (today : ℤ)
    (history : List (ℤ × ℚ)) (txnDates : List ℤ) (cashFlows : List (ℤ × ℚ))
    (ti tw cv cb rf : ℚ) :
    (calcMetrics sqrtFn rpow solver today history txnDates cashFlows ti tw cv cb rf).daily_return
        = specDailyReturn history txnDates
    ∧ (calcMetrics sqrtFn rpow solver today history txnDates cashFlows ti tw cv cb rf).volatility
        = specVolatility sqrtFn history txnDates := by
  have hv := validReturns_eq_spec history txnDates
  unfold calcMetrics
  by_cases h1 : history.length < 2
  · have hd : (dfPositive history).length < 2 := by
      have hle : (dfPositive history).length ≤ history.length := by
        unfold dfPositive
        calc (List.filter (fun e => decide (0 < e.2)) (sortByDate history)).length
            ≤ (sortByDate history).length := List.length_filter_le _ _
          _ = history.length := (sortByDate_perm history).length_eq
      omega
    have hnil := specValidReturns_nil history txnDates hd
    simp only [if_pos h1]
    constructor <;> simp [hnil, specDailyReturn, specVolatility, emptyMetricsWith]
  · by_cases h2 : (dfPositive history).length < 2
    · have hnil := specValidReturns_nil history txnDates h2
      simp only [if_neg h1, if_pos h2]
      constructor <;> simp [hnil, specDailyReturn, specVolatility, emptyMetricsWith]
    · simp only [if_neg h1, if_neg h2]
      rw [hv]
      by_cases hs : specValidReturns history txnDates = []
      · constructor <;> simp [specDailyReturn, specVolatility, hs]
      · have hne : (specValidReturns history txnDates).isEmpty = false := by
          cases hl : specValidReturns history txnDates with
          | nil => exact absurd hl hs
          | cons a as => rfl
        constructor <;> simp [specDailyReturn, specVolatility, hs, hne]

/-- C5: with fewer than two positive-value history points the calculator
returns the degenerate bundle — zeros for `daily_return`, `volatility`,
`max_drawdown`, and `None` for `sharpe_ratio`, `twr_annualized`,
`mwr_annualized`, `best_day`, `worst_day` — instead of raising. -/
theorem metrics_degenerate (sqrtFn : ℚ → ℚ) (rpow : ℚ → ℚ → ℚ)
    (solver : List ℤ → List ℚ → Option ℚ) (today : ℤ)
    (history : List (ℤ × ℚ)) (txnDates : List ℤ) (cashFlows : List (ℤ × ℚ))
    (ti tw cv cb rf : ℚ)
    (h : (history.filter fun e => 0 < e.2).length < 2) :
    (calcMetrics sqrtFn rpow solver today history txnDates cashFlows ti tw cv cb rf).daily_return
        = 0
    ∧ (calcMetrics sqrtFn rpow solver today history txnDates cashFlows ti tw cv cb rf).volatility
        = some 0
    ∧ (calcMetrics sqrtFn rpow solver today history txnDates cashFlows ti tw cv cb rf).max_drawdown
        = 0
    ∧ (calcMetrics sqrtFn rpow solver today history txnDates cashFlows ti tw cv cb rf).sharpe
        = none
    ∧ (calcMetrics sqrtFn rpow solver today history txnDates cashFlows ti tw
        cv cb rf).twr_annualized = none
    ∧ (calcMetrics sqrtFn rpow solver today history txnDates cashFlows ti tw
        cv cb rf).mwr_annualized = none
    ∧ (calcMetrics sqrtFn rpow solver today history txnDates cashFlows ti tw cv cb rf).best_day
        = none
    ∧ (calcMetrics sqrtFn rpow solver today history txnDates cashFlows ti tw cv cb rf).worst_day
        = none := by
  have hd : (dfPositive history).length < 2 := by
    unfold dfPositive
    rw [((sortByDate_perm history).filter _).length_eq]
    exact h
  unfold calcMetrics
  by_cases h1 : history.length < 2
  · simp [if_pos h1, emptyMetricsWith]
  · simp [if_neg h1, if_pos hd, emptyMetricsWith]

/-- Witness for C5: a one-point history. -/
theorem metrics_degenerate_witness :
    (calcMetrics (fun q => q) (fun b _ => b) (fun _ _ => none) 0
        [((0 : ℤ), (5 : ℚ))] [] [] 1 0 0 0 0).daily_return = 0
    ∧ (calcMetrics (fun q => q) (fun b _ => b) (fun _ _ => none) 0
        [((0 : ℤ), (5 : ℚ))] [] [] 1 0 0 0 0).volatility = some 0
    ∧ (calcMetrics (fun q => q) (fun b _ => b) (fun _ _ => none) 0
        [((0 : ℤ), (5 : ℚ))] [] [] 1 0 0 0 0).max_drawdown = 0
    ∧ (calcMetrics (fun q => q) (fun b _ => b) (fun _ _ => none) 0
        [((0 : ℤ), (5 : ℚ))] [] [] 1 0 0 0 0).sharpe = none
    ∧ (calcMetrics (fun q => q) (fun b _ => b) (fun _ _ => none) 0
        [((0 : ℤ), (5 : ℚ))] [] [] 1 0 0 0 0).twr_annualized = none
    ∧ (calcMetrics (fun q => q) (fun b _ => b) (fun _ _ => none) 0
        [((0 : ℤ), (5 : ℚ))] [] [] 1 0 0 0 0).mwr_annualized = none
    ∧ (calcMetrics (fun q => q) (fun b _ => b) (fun _ _ => none) 0
        [((0 : ℤ), (5 : ℚ))] [] [] 1 0 0 0 0).best_day = none
    ∧ (calcMetrics (fun q => q) (fun b _ => b) (fun _ _ => none) 0
        [((0 : ℤ), (5 : ℚ))] [] [] 1 0 0 0 0).worst_day = none :=
  metrics_degenerate (fun q => q) (fun b _ => b) (fun _ _ => none) 0
    [((0 : ℤ), (5 : ℚ))] [] [] 1 0 0 0 0 (by norm_num)

/-- C2 (amended): every output field other than `mwr_annualized` is
independent of the wall-clock date; the calculator is deterministic given
its inputs together with that date. -/
theorem metrics_today_independent_except_mwr (sqrtFn : ℚ → ℚ) (rpow : ℚ → ℚ → ℚ)
    (solver : List ℤ → List ℚ → Option ℚ)
    (history : List (ℤ × ℚ)) (txnDates : List ℤ) (cashFlows : List (ℤ × ℚ))
    (ti tw cv cb rf : ℚ) (today₁ today₂ : ℤ) :
    { calcMetrics sqrtFn rpow solver today₁ history txnDates cashFlows ti tw cv cb rf
        with mwr_annualized := none }
      = { calcMetrics sqrtFn rpow solver today₂ history txnDates cashFlows ti tw cv cb rf
        with mwr_annualized := none } := by
  unfold calcMetrics
  by_cases h1 : history.length < 2
  · simp [if_pos h1]
  · by_cases h2 : (dfPositive history).length < 2
    · simp [if_neg h1, if_pos h2]
    · simp [if_neg h1, if_neg h2]

/-- C2 counterexample: the same inputs evaluated on wall-clock day 10 versus
day 20 give different outputs — the synthetic liquidation flow of
`_calculate_mwr` is dated by the clock, so `mwr_annualized` moves with it. -/
theorem metrics_wall_clock_dependent :
    calcMetrics (fun q => q) (fun b _ => b) linearRateSolver 10
        [((0 : ℤ), (100 : ℚ)), (1, 110)] [] [((0 : ℤ), (-100 : ℚ))] 100 0 110 100 (2 / 100)
      ≠ calcMetrics (fun q => q) (fun b _ => b) linearRateSolver 20
        [((0 : ℤ), (100 : ℚ)), (1, 110)] [] [((0 : ℤ), (-100 : ℚ))] 100 0 110 100 (2 / 100) := by
  intro h
  have h2 := congrArg PerformanceMetrics.mwr_annualized h
  norm_num [calcMetrics, calcMwr, mwrDates, mwrAmounts, maxDate, linearRateSolver,
    dfPositive, sortByDate, insertByDate] at h2

/-- C6: `_calculate_mwr` appends a synthetic positive flow equal to the
current value, dated today or (latest flow date + 1) when today is not
strictly later, keeping the final date strictly after every flow date; it
returns `None` when the amounts are all nonnegative or all nonpositive, and
`None` whenever the solver fails (non-convergence, exception or non-finite
root). -/
theorem mwr_flow_handling (solver : List ℤ → List ℚ → Option ℚ) (today : ℤ)
    (f₀ : ℤ × ℚ) (fs : List (ℤ × ℚ)) (cv : ℚ) :
    (0 < cv →
      mwrAmounts (f₀ :: fs) cv = (f₀ :: fs).map Prod.snd ++ [cv]
      ∧ mwrDates today (f₀ :: fs) cv
          = (f₀ :: fs).map Prod.fst
            ++ [if today ≤ maxDate f₀.1 (fs.map Prod.fst)
                then maxDate f₀.1 (fs.map Prod.fst) + 1 else today]
      ∧ (∀ d ∈ (f₀ :: fs).map Prod.fst,
          d < (if today ≤ maxDate f₀.1 (fs.map Prod.fst)
               then maxDate f₀.1 (fs.map Prod.fst) + 1 else today))
      ∧ (maxDate f₀.1 (fs.map Prod.fst) < today →
          mwrDates today (f₀ :: fs) cv = (f₀ :: fs).map Prod.fst ++ [today]))
    ∧ (((∀ a ∈ mwrAmounts (f₀ :: fs) cv, 0 ≤ a) ∨ (∀ a ∈ mwrAmounts (f₀ :: fs) cv, a ≤ 0)) →
        calcMwr solver today (f₀ :: fs) cv = none)
    ∧ (solver (mwrDates today (f₀ :: fs) cv) (mwrAmounts (f₀ :: fs) cv) = none →
        calcMwr solver today (f₀ :: fs) cv = none) := by
  refine ⟨?_, ?_, ?_⟩
  · intro hcv
    obtain ⟨hmax1, hmax2⟩ := le_maxDate f₀.1 (fs.map Prod.fst)
    refine ⟨?_, ?_, ?_, ?_⟩
    · unfold mwrAmounts
      rw [if_pos hcv]
    · unfold mwrDates
      simp only [List.map_cons]
      rw [if_pos hcv]
    · intro d hd
      have hdm : d ≤ maxDate f₀.1 (fs.map Prod.fst) := by
        simp only [List.map_cons, List.mem_cons] at hd
        rcases hd with rfl | hd'
        · exact hmax1
        · exact hmax2 d hd'
      by_cases ht : today ≤ maxDate f₀.1 (fs.map Prod.fst)
      · rw [if_pos ht]; omega
      · rw [if_neg ht]; omega
    · intro hlt
      unfold mwrDates
      simp only [List.map_cons]
      rw [if_pos hcv, if_neg (not_le.mpr hlt)]
  · intro hmono
    unfold calcMwr
    rw [List.isEmpty_cons, if_neg (by simp)]
    have hguard : ¬(((mwrAmounts (f₀ :: fs) cv).any fun a => a < 0)
        ∧ ((mwrAmounts (f₀ :: fs) cv).any fun a => 0 < a)) := by
      rintro ⟨hneg, hpos⟩
      rw [List.any_eq_true] at hneg hpos
      obtain ⟨a, ha, halt⟩ := hneg
      obtain ⟨b, hb, hbgt⟩ := hpos
      rcases hmono with hall | hall
      · exact absurd (of_decide_eq_true halt) (not_lt.mpr (hall a ha))
      · exact absurd (of_decide_eq_true hbgt) (not_lt.mpr (hall b hb))
    rw [if_pos hguard]
  · intro hsolver
    unfold calcMwr
    rw [List.isEmpty_cons, if_neg (by simp)]
    by_cases hg : ((mwrAmounts (f₀ :: fs) cv).any fun a => a < 0)
        ∧ ((mwrAmounts (f₀ :: fs) cv).any fun a => 0 < a)
    · rw [if_neg (not_not_intro hg)]
      exact hsolver
    · rw [if_pos hg]

/-- Witness for C6: one buy flow of −100 on day 0, current value 110, wall
clock at day 10 (strictly after the flows), with a non-converging solver. -/
theorem mwr_flow_handling_witness :
    mwrAmounts [((0 : ℤ), (-100 : ℚ))] 110 = [-100, 110]
    ∧ mwrDates 10 [((0 : ℤ), (-100 : ℚ))] 110 = [0, 10]
    ∧ calcMwr (fun _ _ => none) 10 [((0 : ℤ), (-100 : ℚ))] 110 = none := by
  have h := mwr_flow_handling (fun _ _ => none) 10 ((0 : ℤ), (-100 : ℚ)) [] 110
  obtain ⟨h1, h2, h3⟩ := h
  obtain ⟨ha, hd, hlt, htoday⟩ := h1 (by norm_num)
  refine ⟨?_, ?_, h3 rfl⟩
  · rw [ha]; rfl
  · rw [htoday (by norm_num [maxDate])]; rfl

/-! ## Equity curve: unfolding equations -/

/-- Unfolding equation: nonempty transactions, empty price fetch. -/
theorem portfolioHistory_fetch_nil (t₀ : Txn) (trest : List Txn) (prices : List PriceRow)
    (today : ℤ) (days : Nat) (hfetch : fetchedPrices t₀ trest prices = []) :
    portfolioHistory (t₀ :: trest) prices today days = [] := by
  show (match fetchedPrices t₀ trest prices with
    | [] => []
    | p₀ :: prest =>
      ((List.range ((gridHi t₀ trest p₀ prest today - gridLo t₀ trest p₀ prest).toNat + 1)).map
        fun (i : ℕ) => (gridLo t₀ trest p₀ prest + (i : ℤ),
          dayValue (t₀ :: trest) (p₀ :: prest) (commonFunds (t₀ :: trest) (p₀ :: prest))
            (gridLo t₀ trest p₀ prest) (gridLo t₀ trest p₀ prest + (i : ℤ)))).filter
        fun (e : ℤ × ℚ) => today - (days : ℤ) ≤ e.1) = []
  rw [hfetch]

/-- Unfolding equation: nonempty transactions, nonempty price fetch. -/
theorem portfolioHistory_fetch_cons (t₀ : Txn) (trest : List Txn) (prices : List PriceRow)
    (today : ℤ) (days : Nat) (p₀ : PriceRow) (prest : List PriceRow)
    (hfetch : fetchedPrices t₀ trest prices = p₀ :: prest) :
    portfolioHistory (t₀ :: trest) prices today days
      = ((List.range
            ((gridHi t₀ trest p₀ prest today - gridLo t₀ trest p₀ prest).toNat + 1)).map
          fun (i : ℕ) => (gridLo t₀ trest p₀ prest + (i : ℤ),
            dayValue (t₀ :: trest) (p₀ :: prest) (commonFunds (t₀ :: trest) (p₀ :: prest))
              (gridLo t₀ trest p₀ prest) (gridLo t₀ trest p₀ prest + (i : ℤ)))).filter
          fun (e : ℤ × ℚ) => today - (days : ℤ) ≤ e.1 := by
  show (match fetchedPrices t₀ trest prices with
    | [] => []
    | p₀ :: prest =>
      ((List.range ((gridHi t₀ trest p₀ prest today - gridLo t₀ trest p₀ prest).toNat + 1)).map
        fun (i : ℕ) => (gridLo t₀ trest p₀ prest + (i : ℤ),
          dayValue (t₀ :: trest) (p₀ :: prest) (commonFunds (t₀ :: trest) (p₀ :: prest))
            (gridLo t₀ trest p₀ prest) (gridLo t₀ trest p₀ prest + (i : ℤ)))).filter
        fun (e : ℤ × ℚ) => today - (days : ℤ) ≤ e.1) = _
  rw [hfetch]

/-! ### Forward-fill lemmas -/

theorem minDate_le (d₀ : ℤ) (ds : List ℤ) :
    minDate d₀ ds ≤ d₀ ∧ ∀ d ∈ ds, minDate d₀ ds ≤ d := by
  induction ds generalizing d₀ with
  | nil => exact ⟨le_rfl, by simp⟩
  | cons x xs ih =>
    obtain ⟨h1, h2⟩ := ih (min d₀ x)
    refine ⟨le_trans h1 (min_le_left _ _), ?_⟩
    intro d hd
    rcases List.mem_cons.mp hd with rfl | hd'
    · exact le_trans h1 (min_le_right _ _)
    · exact h2 d hd'

theorem maxDate_le (d₀ c : ℤ) (ds : List ℤ) (h₀ : d₀ ≤ c) (h : ∀ d ∈ ds, d ≤ c) :
    maxDate d₀ ds ≤ c := by
  induction ds generalizing d₀ with
  | nil => exact h₀
  | cons x xs ih =>
    exact ih (max d₀ x) (max_le h₀ (h x (List.mem_cons_self _ _)))
      fun d hd => h d (List.mem_cons_of_mem _ hd)

/-- Unfolding equation for a positive scan count. -/
theorem searchBack_unfold (lookup : ℤ → Option ℚ) (d : ℤ) (n : Nat) :
    searchBack lookup d (n + 1)
      = match lookup d with
        | some x => some x
        | none => searchBack lookup (d - 1) n := rfl

/-- Peeling `searchBack` from the bottom of its scan range. -/
theorem searchBack_succ (lookup : ℤ → Option ℚ) (n : Nat) :
    ∀ d : ℤ, searchBack lookup d (n + 1)
      = match searchBack lookup d n with
        | some x => some x
        | none => lookup (d - n) := by
  induction n with
  | zero =>
    intro d
    rw [searchBack_unfold]
    cases hl : lookup d <;> simp [searchBack, hl]
  | succ n ih =>
    intro d
    rw [searchBack_unfold lookup d (n + 1), searchBack_unfold lookup d n]
    cases hl : lookup d with
    | some x => rfl
    | none =>
      show searchBack lookup (d - 1) (n + 1)
        = match searchBack lookup (d - 1) n with
          | some x => some x
          | none => lookup (d - (((n : ℕ) + 1 : ℕ) : ℤ))
      rw [ih (d - 1)]
      cases hs : searchBack lookup (d - 1) n with
      | some y => rfl
      | none =>
        show lookup (d - 1 - (n : ℤ)) = lookup (d - (((n : ℕ) + 1 : ℕ) : ℤ))
        congr 1
        push_cast
        ring

/-- Every cell of the reindex-and-forward-fill pass carries the first price
found scanning from its date down to the grid start (the initial carry when
none exists): the operational `ffill` agrees with the random-access cell. -/
theorem ffillSeries_cells (lookup : ℤ → Option ℚ) (n : Nat) :
    ∀ (carry : Option ℚ) (lo : ℤ) (cell : ℤ × Option ℚ),
      cell ∈ ffillSeries lookup carry lo n →
      (cell.2 = (match searchBack lookup cell.1 ((cell.1 - lo).toNat + 1) with
          | some x => some x
          | none => carry)
        ∧ lo ≤ cell.1 ∧ cell.1 < lo + n) := by
  induction n with
  | zero => intro carry lo cell h; simp [ffillSeries] at h
  | succ n ih =>
    intro carry lo cell h
    have hself : (lo - lo).toNat + 1 = 1 := by simp
    have hsb1 : searchBack lookup lo ((lo - lo).toNat + 1)
        = match lookup lo with
          | some x => some x
          | none => none := by
      rw [hself, searchBack_unfold]
      cases hl : lookup lo <;> simp [searchBack, hl]
    unfold ffillSeries at h
    cases hl : lookup lo with
    | some x =>
      rw [hl] at h
      rcases List.mem_cons.mp h with rfl | htail
      · refine ⟨?_, le_rfl, by omega⟩
        rw [hsb1, hl]
      · obtain ⟨hc, hlo, hhi⟩ := ih (some x) (lo + 1) cell htail
        refine ⟨?_, by omega, by omega⟩
        rw [hc]
        have hK : (cell.1 - lo).toNat = (cell.1 - (lo + 1)).toNat + 1 := by omega
        rw [hK, searchBack_succ lookup ((cell.1 - (lo + 1)).toNat + 1) cell.1]
        have hfloor : cell.1 - (((cell.1 - (lo + 1)).toNat + 1 : ℕ) : ℤ) = lo := by omega
        rw [hfloor]
        cases hs : searchBack lookup cell.1 ((cell.1 - (lo + 1)).toNat + 1) with
        | some y => rfl
        | none => rw [hl]
    | none =>
      rw [hl] at h
      rcases List.mem_cons.mp h with rfl | htail
      · refine ⟨?_, le_rfl, by omega⟩
        rw [hsb1, hl]
      · obtain ⟨hc, hlo, hhi⟩ := ih carry (lo + 1) cell htail
        refine ⟨?_, by omega, by omega⟩
        rw [hc]
        have hK : (cell.1 - lo).toNat = (cell.1 - (lo + 1)).toNat + 1 := by omega
        rw [hK, searchBack_succ lookup ((cell.1 - (lo + 1)).toNat + 1) cell.1]
        have hfloor : cell.1 - (((cell.1 - (lo + 1)).toNat + 1 : ℕ) : ℤ) = lo := by omega
        rw [hfloor]
        cases hs : searchBack lookup cell.1 ((cell.1 - (lo + 1)).toNat + 1) with
        | some y => rfl
        | none => rw [hl]

/-- Specialisation: started with no carry, the forward-fill pass computes
exactly the `ffillPrice` cell used by `portfolioHistory`. -/
theorem ffillSeries_eq_ffillPrice (prices : List PriceRow) (f : Nat) (lo : ℤ) (n : Nat)
    (cell : ℤ × Option ℚ) (h : cell ∈ ffillSeries (priceOn prices f) none lo n) :
    cell.2 = ffillPrice prices f lo cell.1 := by
  obtain ⟨hc, -, -⟩ := ffillSeries_cells (priceOn prices f) n none lo cell h
  rw [hc]
  unfold ffillPrice
  cases searchBack (priceOn prices f) cell.1 ((cell.1 - lo).toNat + 1) <;> rfl

/-- What the downward scan returns is the latest price on or before the
start date — provided every relevant row lies within the scanned range. -/
theorem searchBack_spec (prices : List PriceRow) (f : Nat) :
    ∀ (n : Nat) (d : ℤ),
      (∀ p ∈ prices, p.fundId = f → p.pdate ≤ d → d - (n : ℤ) < p.pdate) →
      ((∀ q, searchBack (priceOn prices f) d n = some q →
        ∃ r ∈ prices, r.fundId = f ∧ r.pdate ≤ d ∧ r.price = q
          ∧ ∀ r' ∈ prices, r'.fundId = f → r'.pdate ≤ d → r'.pdate ≤ r.pdate)
      ∧ (searchBack (priceOn prices f) d n = none →
          ∀ r ∈ prices, r.fundId = f → ¬ r.pdate ≤ d)) := by
  intro n
  induction n with
  | zero =>
    intro d hcov
    constructor
    · intro q hq
      simp [searchBack] at hq
    · intro _ r hr hf hle
      have := hcov r hr hf hle
      simp at this
      omega
  | succ n ih =>
    intro d hcov
    rw [searchBack_unfold]
    cases hp : priceOn prices f d with
    | some x =>
      obtain ⟨r, hfind, hprice⟩ :
          ∃ r, (prices.find? fun p => p.fundId = f ∧ p.pdate = d) = some r ∧ r.price = x := by
        unfold priceOn at hp
        cases hf : prices.find? fun p => p.fundId = f ∧ p.pdate = d with
        | none => rw [hf] at hp; simp at hp
        | some r =>
          rw [hf] at hp
          simp at hp
          exact ⟨r, rfl, hp⟩
      have hrmem : r ∈ prices := List.mem_of_find?_eq_some hfind
      have hrp : r.fundId = f ∧ r.pdate = d := by simpa using List.find?_some hfind
      constructor
      · intro q hq
        have hxq : x = q := by simpa using hq
        refine ⟨r, hrmem, hrp.1, le_of_eq hrp.2, hprice.trans hxq, ?_⟩
        intro r' hr' _ hle'
        rw [hrp.2]
        exact hle'
      · intro hq
        simp at hq
    | none =>
      have hnorow : ∀ p ∈ prices, ¬(p.fundId = f ∧ p.pdate = d) := by
        unfold priceOn at hp
        cases hf : prices.find? (fun p => p.fundId = f ∧ p.pdate = d) with
        | some r => rw [hf] at hp; simp at hp
        | none =>
          intro p hpp
          have := List.find?_eq_none.mp hf p hpp
          simpa using this
      have hcov' : ∀ p ∈ prices, p.fundId = f → p.pdate ≤ d - 1 →
          (d - 1) - (n : ℤ) < p.pdate := by
        intro p hpp hf1 hle
        have := hcov p hpp hf1 (by omega)
        push_cast at this
        omega
      obtain ⟨ihs, ihn⟩ := ih (d - 1) hcov'
      constructor
      · intro q hq
        have hq' : searchBack (priceOn prices f) (d - 1) n = some q := by simpa using hq
        obtain ⟨r, hrm, hrf, hrle, hrpr, hrmax⟩ := ihs q hq'
        refine ⟨r, hrm, hrf, by omega, hrpr, ?_⟩
        intro r' hr' hf' hle'
        by_cases hd' : r'.pdate = d
        · exact absurd ⟨hf', hd'⟩ (hnorow r' hr')
        · exact hrmax r' hr' hf' (by omega)
      · intro hq r hr hf1 hle
        have hq' : searchBack (priceOn prices f) (d - 1) n = none := by simpa using hq
        by_cases hd' : r.pdate = d
        · exact hnorow r hr ⟨hf1, hd'⟩
        · exact ihn hq' r hr hf1 (by omega)

/-- A price returned by the scan is the price of some scanned row. -/
theorem searchBack_price_mem (prices : List PriceRow) (f : Nat) :
    ∀ (n : Nat) (d : ℤ) (q : ℚ), searchBack (priceOn prices f) d n = some q →
      ∃ r ∈ prices, r.price = q := by
  intro n
  induction n with
  | zero => intro d q h; simp [searchBack] at h
  | succ n ih =>
    intro d q h
    rw [searchBack_unfold] at h
    cases hl : priceOn prices f d with
    | some x =>
      rw [hl] at h
      have hxq : x = q := by simpa using h
      unfold priceOn at hl
      cases hf : prices.find? fun p => p.fundId = f ∧ p.pdate = d with
      | none => rw [hf] at hl; simp at hl
      | some r =>
        rw [hf] at hl
        simp at hl
        exact ⟨r, List.mem_of_find?_eq_some hf, hl.trans hxq⟩
    | none =>
      rw [hl] at h
      exact ih (d - 1) q (by simpa using h)

/-! ## Claim theorems for the equity curve -/

/-- C3 (amended): every output point of `get_portfolio_history` is the sum
over the common funds of clamped holdings times the forward-filled price
cell, and that cell is the latest *fetched* price on or before the date —
never a later (back-filled) or interpolated one.  Fetched means dated on or
after the earliest transaction: the query `Price.date >= earliest_txn_date`
discards older price rows, so a price known only before the first
transaction is not used (see the counterexample for the unamended claim). -/
theorem history_forward_fill_fetched (prices : List PriceRow) (today : ℤ) (days : Nat)
    (t₀ : Txn) (trest : List Txn) (p₀ : PriceRow) (prest : List PriceRow) (f : Nat) (d : ℤ)
    (hfetch : fetchedPrices t₀ trest prices = p₀ :: prest)
    (hd : gridLo t₀ trest p₀ prest ≤ d) :
    (∀ e ∈ portfolioHistory (t₀ :: trest) prices today days,
      e.2 = dayValue (t₀ :: trest) (p₀ :: prest)
        (commonFunds (t₀ :: trest) (p₀ :: prest)) (gridLo t₀ trest p₀ prest) e.1)
    ∧ (∀ q, ffillPrice (p₀ :: prest) f (gridLo t₀ trest p₀ prest) d = some q →
        ∃ r ∈ p₀ :: prest, r.fundId = f ∧ r.pdate ≤ d ∧ r.price = q
          ∧ ∀ r' ∈ p₀ :: prest, r'.fundId = f → r'.pdate ≤ d → r'.pdate ≤ r.pdate)
    ∧ (ffillPrice (p₀ :: prest) f (gridLo t₀ trest p₀ prest) d = none →
        ∀ r ∈ p₀ :: prest, r.fundId = f → ¬ r.pdate ≤ d) := by
  have hall : ∀ p ∈ p₀ :: prest, gridLo t₀ trest p₀ prest ≤ p.pdate := by
    intro p hp
    rw [← hfetch] at hp
    have h2 : minDate t₀.txnDate (trest.map Txn.txnDate) ≤ p.pdate := by
      simpa using List.of_mem_filter hp
    exact le_trans (min_le_left _ _) h2
  have hcov : ∀ p ∈ p₀ :: prest, p.fundId = f → p.pdate ≤ d →
      d - (((d - gridLo t₀ trest p₀ prest).toNat + 1 : ℕ) : ℤ) < p.pdate := by
    intro p hp _ _
    have h1 := hall p hp
    have h2 : ((d - gridLo t₀ trest p₀ prest).toNat : ℤ) = d - gridLo t₀ trest p₀ prest :=
      Int.toNat_of_nonneg (by omega)
    push_cast
    omega
  obtain ⟨hs, hn⟩ :=
    searchBack_spec (p₀ :: prest) f ((d - gridLo t₀ trest p₀ prest).toNat + 1) d hcov
  refine ⟨?_, hs, hn⟩
  intro e he
  rw [portfolioHistory_fetch_cons t₀ trest prices today days p₀ prest hfetch,
    List.mem_filter] at he
  obtain ⟨i, hi, hie⟩ := List.mem_map.mp he.1
  rw [← hie]

/-- C3 counterexample: a price for fund 1 exists on day 8, the first (and
only) transaction is a buy on day 10; because the fetch discards prices
dated before day 10, the curve values day 10 at 0 even though the latest
known price on or before day 10 (5, from day 8) times the clamped holding
(1 unit) is 5 — the claim over all known prices fails. -/
theorem history_prefetch_price_ignored :
    ((10 : ℤ), (0 : ℚ)) ∈
      portfolioHistory [⟨1, "buy", 1, 1, 10⟩] [⟨1, 8, 5⟩, ⟨1, 12, 5⟩] 12 10
    ∧ (⟨1, 8, 5⟩ : PriceRow) ∈ [(⟨1, 8, 5⟩ : PriceRow), ⟨1, 12, 5⟩]
    ∧ (⟨1, 8, 5⟩ : PriceRow).pdate ≤ 10
    ∧ (∀ r ∈ [(⟨1, 8, 5⟩ : PriceRow), ⟨1, 12, 5⟩],
        r.fundId = 1 → r.pdate ≤ 10 → r.pdate ≤ (⟨1, 8, 5⟩ : PriceRow).pdate)
    ∧ max (holdingsAt [⟨1, "buy", 1, 1, 10⟩] 1 10) 0 * (⟨1, 8, 5⟩ : PriceRow).price ≠ 0 := by
  have hph : portfolioHistory [⟨1, "buy", 1, 1, 10⟩] [⟨1, 8, 5⟩, ⟨1, 12, 5⟩] 12 10
      = [(10, 0), (11, 0), (12, 5)] := by
    norm_num [portfolioHistory, fetchedPrices, minDate, maxDate, gridLo, gridHi,
      commonFunds, dayValue, cellValue, ffillPrice, searchBack, priceOn, holdingsAt,
      signedUnits, List.range_succ, show ((2 : ℤ)).toNat = 2 from rfl]
  refine ⟨?_, by decide, by decide, by decide, ?_⟩
  · rw [hph]
    norm_num
  · norm_num [holdingsAt, signedUnits]

/-- C8 (amended): every output date is at least today − N; and provided no
transaction or price is dated in the future, every output date is at most
today.  The unamended upper bound fails on future-dated rows because the
code only filters `index >= start_date` (see the counterexample). -/
theorem history_window_bounds (txns : List Txn) (prices : List PriceRow) (today : ℤ)
    (days : Nat) :
    (∀ e ∈ portfolioHistory txns prices today days, today - (days : ℤ) ≤ e.1)
    ∧ ((∀ t ∈ txns, t.txnDate ≤ today) → (∀ p ∈ prices, p.pdate ≤ today) →
        ∀ e ∈ portfolioHistory txns prices today days, e.1 ≤ today) := by
  cases txns with
  | nil =>
    exact ⟨by intro e he; simp [portfolioHistory] at he,
      fun _ _ => by intro e he; simp [portfolioHistory] at he⟩
  | cons t₀ trest =>
    cases hfetch : fetchedPrices t₀ trest prices with
    | nil =>
      constructor
      · intro e he
        rw [portfolioHistory_fetch_nil t₀ trest prices today days hfetch] at he
        simp at he
      · intro _ _ e he
        rw [portfolioHistory_fetch_nil t₀ trest prices today days hfetch] at he
        simp at he
    | cons p₀ prest =>
      constructor
      · intro e he
        rw [portfolioHistory_fetch_cons t₀ trest prices today days p₀ prest hfetch,
          List.mem_filter] at he
        exact of_decide_eq_true he.2
      · intro ht hp e he
        rw [portfolioHistory_fetch_cons t₀ trest prices today days p₀ prest hfetch,
          List.mem_filter] at he
        obtain ⟨i, hi, hie⟩ := List.mem_map.mp he.1
        have hlole : gridLo t₀ trest p₀ prest ≤ gridHi t₀ trest p₀ prest today := by
          have h1 : gridLo t₀ trest p₀ prest ≤ t₀.txnDate :=
            le_trans (min_le_left _ _) (minDate_le t₀.txnDate (trest.map Txn.txnDate)).1
          have h2 : t₀.txnDate ≤ gridHi t₀ trest p₀ prest today :=
            le_trans (le_maxDate t₀.txnDate (trest.map Txn.txnDate)).1 (le_max_left _ _)
          omega
        have hup : gridHi t₀ trest p₀ prest today ≤ today := by
          have hsub : ∀ p ∈ p₀ :: prest, p.pdate ≤ today := by
            intro p hpp
            rw [← hfetch] at hpp
            exact hp p (List.mem_of_mem_filter hpp)
          have htx : maxDate t₀.txnDate (trest.map Txn.txnDate) ≤ today := by
            apply maxDate_le _ _ _ (ht t₀ (List.mem_cons_self _ _))
            intro x hx
            obtain ⟨t, htm, rfl⟩ := List.mem_map.mp hx
            exact ht t (List.mem_cons_of_mem _ htm)
          have hpr : maxDate p₀.pdate (prest.map PriceRow.pdate) ≤ today := by
            apply maxDate_le _ _ _ (hsub p₀ (List.mem_cons_self _ _))
            intro x hx
            obtain ⟨p, hpm, rfl⟩ := List.mem_map.mp hx
            exact hsub p (List.mem_cons_of_mem _ hpm)
          exact max_le htx (max_le hpr le_rfl)
        have hiub : (i : ℤ)
            ≤ gridHi t₀ trest p₀ prest today - gridLo t₀ trest p₀ prest := by
          have := List.mem_range.mp hi
          omega
        have he1 : e.1 = gridLo t₀ trest p₀ prest + i := by rw [← hie]
        omega

/-- C8 counterexample: a price dated two days after "today" puts the points
(1, ·) and (2, ·) — both strictly after today = 0 — into the output. -/
theorem history_future_date_leak :
    ((2 : ℤ), (1 : ℚ)) ∈
      portfolioHistory [⟨1, "buy", 1, 1, 0⟩] [⟨1, 0, 1⟩, ⟨1, 2, 1⟩] 0 5
    ∧ (0 : ℤ) < 2 := by
  have hph : portfolioHistory [⟨1, "buy", 1, 1, 0⟩] [⟨1, 0, 1⟩, ⟨1, 2, 1⟩] 0 5
      = [(0, 1), (1, 1), (2, 1)] := by
    norm_num [portfolioHistory, fetchedPrices, minDate, maxDate, gridLo, gridHi,
      commonFunds, dayValue, cellValue, ffillPrice, searchBack, priceOn, holdingsAt,
      signedUnits, List.range_succ, show ((2 : ℤ)).toNat = 2 from rfl]
  refine ⟨?_, by decide⟩
  rw [hph]
  norm_num

/-- C9: with nonnegative prices (the interface guarantees positive ones),
every output point's value is nonnegative: holdings are clamped at 0 before
the multiplication, and missing cells contribute 0. -/
theorem history_value_nonneg (txns : List Txn) (prices : List PriceRow) (today : ℤ)
    (days : Nat) (hp : ∀ p ∈ prices, 0 ≤ p.price) :
    ∀ e ∈ portfolioHistory txns prices today days, 0 ≤ e.2 := by
  cases txns with
  | nil => intro e he; simp [portfolioHistory] at he
  | cons t₀ trest =>
    cases hfetch : fetchedPrices t₀ trest prices with
    | nil =>
      intro e he
      rw [portfolioHistory_fetch_nil t₀ trest prices today days hfetch] at he
      simp at he
    | cons p₀ prest =>
      intro e he
      rw [portfolioHistory_fetch_cons t₀ trest prices today days p₀ prest hfetch,
        List.mem_filter] at he
      obtain ⟨i, hi, hie⟩ := List.mem_map.mp he.1
      rw [← hie]
      apply List.sum_nonneg
      intro x hx
      obtain ⟨g, hg, hgx⟩ := List.mem_map.mp hx
      rw [← hgx]
      unfold cellValue
      cases hpr : ffillPrice (p₀ :: prest) g (gridLo t₀ trest p₀ prest)
          (gridLo t₀ trest p₀ prest + ↑i) with
      | none => exact le_rfl
      | some q =>
        obtain ⟨r, hrm, hrq⟩ := searchBack_price_mem (p₀ :: prest) g _ _ q hpr
        have hq : 0 ≤ q := by
          rw [← hrq]
          apply hp
          rw [← hfetch] at hrm
          exact List.mem_of_mem_filter hrm
        exact mul_nonneg (le_max_right _ _) hq

/-- Witness for C3: prices for fund 1 on days 0 (price 2) and 3 (price 4),
a buy on day 0; the cell used on day 2 is the day-0 price (the spec's
d1 < d2 < d3 scenario — no interpolation, no back-fill from day 3). -/
theorem history_forward_fill_fetched_witness :
    ∃ r ∈ [(⟨1, 0, 2⟩ : PriceRow), ⟨1, 3, 4⟩], r.fundId = 1 ∧ r.pdate ≤ 2 ∧ r.price = 2
      ∧ ∀ r' ∈ [(⟨1, 0, 2⟩ : PriceRow), ⟨1, 3, 4⟩], r'.fundId = 1 → r'.pdate ≤ 2 →
          r'.pdate ≤ r.pdate := by
  have h := history_forward_fill_fetched [⟨1, 0, 2⟩, ⟨1, 3, 4⟩] 3 10 ⟨1, "buy", 1, 1, 0⟩ []
    ⟨1, 0, 2⟩ [⟨1, 3, 4⟩] 1 2 (by decide) (by decide)
  exact h.2.1 2 (by decide)

/-- Witness for C9: every point of a concrete two-price history is
nonnegative, and the history is nonempty. -/
theorem history_value_nonneg_witness :
    (∀ e ∈ portfolioHistory [⟨1, "buy", 1, 1, 0⟩] [⟨1, 0, 1⟩, ⟨1, 2, 1⟩] 0 5, 0 ≤ e.2)
    ∧ portfolioHistory [⟨1, "buy", 1, 1, 0⟩] [⟨1, 0, 1⟩, ⟨1, 2, 1⟩] 0 5 ≠ [] := by
  constructor
  · exact history_value_nonneg [⟨1, "buy", 1, 1, 0⟩] [⟨1, 0, 1⟩, ⟨1, 2, 1⟩] 0 5 (by decide)
  · have hph : portfolioHistory [⟨1, "buy", 1, 1, 0⟩] [⟨1, 0, 1⟩, ⟨1, 2, 1⟩] 0 5
        = [(0, 1), (1, 1), (2, 1)] := by
      norm_num [portfolioHistory, fetchedPrices, minDate, maxDate, gridLo, gridHi,
        commonFunds, dayValue, cellValue, ffillPrice, searchBack, priceOn, holdingsAt,
        signedUnits, List.range_succ, show ((2 : ℤ)).toNat = 2 from rfl]
    rw [hph]
    simp

end Portfolio
